import Mathlib

/-!
Verification development for the Smart File Renamer
(src/smart_filing_system.py, class SmartFilingSystem).

Shallow embedding conventions:
* A filesystem path is a list of components (strings), as in pathlib's
  parts.  FPath join with a single filename appends one component;
  patterns producing separator characters are out of scope of the model.
* The filesystem is a flat snapshot: a list of (file path, content id)
  pairs plus a list of directory paths.  Content ids stand for file
  contents so that overwrites are observable.
* Python primitives keep their library semantics:
  - FPath.suffix, str.lstrip('.'), str.lower() (ASCII range, as all
    extension characters of interest are ASCII),
  - FPath ordering (pathlib compares the tuple of parts, each part by
    code points), modelled by insertion sort under that order,
  - shutil.copy2 / shutil.move including the into-directory redirect,
    the SameFileError on copy, and os.rename being a no-op on equal
    paths,
  - dict with insertion order (association lists).
* str.format is opaque to the program (the pattern string is never
  inspected); it is modelled by an oracle fmt : pattern -> i -> Option
  base name, none standing for a raised formatting exception.
  Environment-caused per-file failures (permission denied, I/O error)
  are modelled by an oracle opFail : src -> dst -> Bool.
* print statements are modelled as an event trace; a raised exception
  that escapes organize_files is an Except.error result.
-/

/-! ### Characters and strings (Python primitives) -/

/-- ASCII lower-casing of one character, the fragment of str.lower
relevant to extension strings. -/
def lowerChar (c : Char) : Char :=
  if h : 65 ≤ c.toNat ∧ c.toNat ≤ 90 then
    ⟨⟨⟨⟨c.toNat + 32, by omega⟩⟩⟩, by
      have : c.toNat + 32 < 55296 := by omega
      exact Or.inl this⟩
  else c

/-- Model of str.lower(). -/
def pyLower (s : String) : String := String.mk (s.data.map lowerChar)

/-- Model of str.lstrip('.'): drop every leading dot. -/
def lstripDots (s : String) : String := String.mk (s.data.dropWhile (· == '.'))

/-- Index of the last dot of a character list (Python str.rfind('.')). -/
def rfindDot (cs : List Char) : Option Nat :=
  (cs.reverse.findIdx? (fun c => c == '.')).map (fun j => cs.length - 1 - j)

/-- Model of pathlib's PurePath.suffix on a file name: the part from the
last dot on, unless the dot is leading or trailing. -/
def pySuffix (n : String) : String :=
  let cs := n.data
  match rfindDot cs with
  | none => ""
  | some i => if 0 < i ∧ i < cs.length - 1 then String.mk (cs.drop i) else ""

/-- The extension key used for grouping and pattern lookup
(line 60: item.suffix.lstrip('.').lower()). -/
def extKey (n : String) : String := pyLower (lstripDots (pySuffix n))

/-! ### Paths and the filesystem snapshot -/

/-- A path component (one file or directory name). -/
abbrev Name := String

/-- A path, as its list of components (pathlib parts). -/
abbrev FPath := List Name

/-- A filesystem snapshot: regular files with content ids, and
directories. -/
structure FS where
  files : List (FPath × Nat)
  dirs : List FPath
deriving DecidableEq

def filePaths (fs : FS) : List FPath := fs.files.map Prod.fst

/-- Model of FPath.is_file(). -/
def isFile (fs : FS) (p : FPath) : Bool := (filePaths fs).contains p

/-- Model of FPath.is_dir(). -/
def isDir (fs : FS) (p : FPath) : Bool := fs.dirs.contains p

/-- Model of FPath.exists(). -/
def pyExists (fs : FS) (p : FPath) : Bool := isFile fs p || isDir fs p

/-- The last component of a path (pathlib name); discovered file paths
are always nonempty, the empty default only totalises the function. -/
def lastName (p : FPath) : Name := p.getLast?.getD ""

/-- The regular files that are direct children of d, in snapshot order
(the model's iterdir enumeration order). -/
def childFiles (fs : FS) (d : FPath) : List FPath :=
  (filePaths fs).filter (fun p => p.dropLast == d && !p.isEmpty)

/-- The directories that are direct children of d, in snapshot order. -/
def childDirs (fs : FS) (d : FPath) : List FPath :=
  fs.dirs.filter (fun p => p.dropLast == d && !p.isEmpty)

/-- Content lookup of a regular file. -/
def lookupFile (fs : FS) (p : FPath) : Option Nat := fs.files.lookup p

/-- Create or overwrite a regular file. -/
def writeFile (fs : FS) (p : FPath) (c : Nat) : FS :=
  { fs with files := fs.files.filter (fun q => !(q.1 == p)) ++ [(p, c)] }

/-- Remove a regular file. -/
def eraseFile (fs : FS) (p : FPath) : FS :=
  { fs with files := fs.files.filter (fun q => !(q.1 == p)) }

/-- Greatest directory depth of the snapshot; recursion fuel bound for
directory descent. -/
def dirDepth (fs : FS) : Nat := (fs.dirs.map List.length).foldr Nat.max 0

/-! ### pathlib ordering of paths (used by files.sort(), line 101) -/

/-- Python string comparison: lexicographic by code point. -/
def charsLt : List Char → List Char → Bool
  | [], [] => false
  | [], _ :: _ => true
  | _ :: _, [] => false
  | a :: as, b :: bs =>
    if a.toNat < b.toNat then true
    else if b.toNat < a.toNat then false
    else charsLt as bs

def strLt (a b : Name) : Bool := charsLt a.data b.data

/-- pathlib FPath comparison: lexicographic over the tuple of parts. -/
def pathLt : FPath → FPath → Bool
  | [], [] => false
  | [], _ :: _ => true
  | _ :: _, [] => false
  | a :: as, b :: bs =>
    if strLt a b then true
    else if strLt b a then false
    else pathLt as bs

/-- The non-strict pathlib order. -/
def pLe (p q : FPath) : Prop := pathLt q p = false

instance : DecidableRel pLe := fun p q => instDecidableEqBool (pathLt q p) false

/-- Model of files.sort(): the unique pLe-sorted permutation. -/
def sortPaths (files : List FPath) : List FPath := List.insertionSort pLe files

/-- Model of enumerate(files, 1) after the in-place sort: the 1-based
numbering of an extension group. -/
def numbering (files : List FPath) : List (Nat × FPath) :=
  List.enumFrom 1 (sortPaths files)

/-- The full path as one string, components joined by '/'.  Used only to
compare the code's ordering with full-path-string ordering. -/
def pathStr (p : FPath) : String := String.intercalate "/" p

/-! ### The organizer configuration (class SmartFilingSystem) -/

/-- The configuration state of the class: target folder, per-extension
pattern dict (insertion-ordered association list) and default pattern.
The constructor's mkdir of the target folder is a precondition of the
runs modelled here, not part of the organize operation. -/
structure SmartFilingSystem where
  folder_path : FPath
  naming_patterns : List (Name × Name)
  default_pattern : Name
deriving DecidableEq

/-- Python dict assignment d[k] = v: overwrite in place or append. -/
def dictInsert (m : List (Name × Name)) (k v : Name) : List (Name × Name) :=
  match m with
  | [] => [(k, v)]
  | (k2, v2) :: rest => if k2 == k then (k2, v) :: rest else (k2, v2) :: dictInsert rest k v

/-- Python dict d.get(k, default). -/
def dictGetD (m : List (Name × Name)) (k d : Name) : Name :=
  match m with
  | [] => d
  | (k2, v) :: rest => if k2 == k then v else dictGetD rest k d

/-- Constructor (lines 12-24); "file_\x7b:02d\x7d" is the literal
default pattern of line 20. -/
def SmartFilingSystem.init (folder : FPath) : SmartFilingSystem :=
  { folder_path := folder, naming_patterns := [], default_pattern := "file_\x7b:02d\x7d" }

/-- set_naming_pattern (lines 26-35). -/
def set_naming_pattern (sys : SmartFilingSystem) (extension pattern : Name) : SmartFilingSystem :=
  { sys with naming_patterns := dictInsert sys.naming_patterns (pyLower (lstripDots extension)) pattern }

/-- set_default_pattern (lines 37-43). -/
def set_default_pattern (sys : SmartFilingSystem) (pattern : Name) : SmartFilingSystem :=
  { sys with default_pattern := pattern }

/-! ### Discovery (_get_files_by_extension, lines 45-75) -/

/-- Extension-keyed grouping dict: insertion-ordered association list
from extension to the discovered file paths. -/
abbrev ExtMap := List (Name × List FPath)

/-- Append paths to the list of key ext, creating the key at the end if
absent (lines 61-63 and 70-73). -/
def extMapApp (m : ExtMap) (ext : Name) (ps : List FPath) : ExtMap :=
  match m with
  | [] => [(ext, ps)]
  | (k, l) :: rest => if k == ext then (k, l ++ ps) :: rest else (k, l) :: extMapApp rest ext ps

/-- The recursion of _get_files_by_extension.  Fuel only bounds the
directory-descent depth; with the fuel organize passes it is never
exhausted on paths that have children. -/
def getFilesAux (fs : FS) : Nat → FPath → Bool → ExtMap
  | 0, _, _ => []
  | fuel + 1, src, recursive =>
    let base := (childFiles fs src).foldl (fun m p => extMapApp m (extKey (lastName p)) [p]) []
    if recursive then
      (childDirs fs src).foldl
        (fun m d => (getFilesAux fs fuel d recursive).foldl (fun m2 kv => extMapApp m2 kv.1 kv.2) m)
        base
    else base

/-- Raised by iterdir when the existing source is not a directory. -/
inductive PyErr where
  | notADirectory
  | formatError
deriving DecidableEq

/-- _get_files_by_extension including iterdir's NotADirectoryError on a
non-directory source (the recursion itself only descends into is_dir
children, so only the top-level call can raise it). -/
def get_files_by_extension (fs : FS) (src : FPath) (recursive : Bool) : Except PyErr ExtMap :=
  if isDir fs src then .ok (getFilesAux fs (dirDepth fs + 1) src recursive) else .error .notADirectory

/-! ### shutil primitives -/

/-- shutil.copy2(src, dst): fails (raises) when src is missing, when the
final destination equals src (SameFileError) or is a directory; when dst
is a directory the copy is redirected to dst/basename(src); an existing
destination file is overwritten. -/
def pyCopy2 (fs : FS) (src dst : FPath) : Option FS :=
  match lookupFile fs src with
  | none => none
  | some c =>
    if isDir fs dst then
      let d := dst ++ [lastName src]
      if d == src || isDir fs d then none
      else some (writeFile fs d c)
    else if dst == src then none
    else some (writeFile fs dst c)

/-- shutil.move(src, dst): fails when src is missing, or when dst is a
directory already containing an entry named like src; os.rename onto the
identical path is a successful no-op; otherwise dst is overwritten and
src removed. -/
def pyMove (fs : FS) (src dst : FPath) : Option FS :=
  match lookupFile fs src with
  | none => none
  | some c =>
    if isDir fs dst then
      let d := dst ++ [lastName src]
      if pyExists fs d then none
      else some (eraseFile (writeFile fs d c) src)
    else if dst == src then some fs
    else some (eraseFile (writeFile fs dst c) src)

/-! ### organize_files (lines 77-124) -/

/-- The print statements of organize_files, as an observable trace. -/
inductive Event where
  | copied (src dst : FPath)
  | moved (src dst : FPath)
  | errFile (src : FPath)
  | errMissing (src : FPath)
deriving DecidableEq

/-- The value and observable state of one organize run: the returned
counts dict, the resulting filesystem, the emitted trace. -/
structure RunResult where
  counts : List (Name × Nat)
  fs : FS
  events : List Event
deriving DecidableEq

/-- Oracle for str.format on a pattern string: none models a raised
formatting exception (malformed pattern). -/
abbrev Fmt := Name → Nat → Option Name

/-- Oracle for environment-caused failure of the copy/move call on
(src, dst): permission denied, I/O error. -/
abbrev OpFail := FPath → FPath → Bool

/-- counts[ext] = counts.get(ext, 0) + 1 (line 120). -/
def bump (counts : List (Name × Nat)) (k : Name) : List (Name × Nat) :=
  match counts with
  | [] => [(k, 1)]
  | (k2, n) :: rest => if k2 == k then (k2, n + 1) :: rest else (k2, n) :: bump rest k

/-- The inner loop of organize_files (lines 107-122) over the numbered
sorted group.  pattern.format(i) runs before the try block, so its
failure aborts with an error; only the copy/move call is guarded. -/
def processGroup (fmt : Fmt) (opFail : OpFail) (sys : SmartFilingSystem) (move : Bool)
    (ext pattern : Name) : List (Nat × FPath) → RunResult → Except PyErr RunResult
  | [], st => .ok st
  | (i, src) :: rest, st =>
    match fmt pattern i with
    | none => .error .formatError
    | some base =>
      let dst := sys.folder_path ++ [base ++ pySuffix (lastName src)]
      if opFail src dst then
        processGroup fmt opFail sys move ext pattern rest
          ⟨st.counts, st.fs, st.events ++ [.errFile src]⟩
      else if move then
        match pyMove st.fs src dst with
        | none => processGroup fmt opFail sys move ext pattern rest
            ⟨st.counts, st.fs, st.events ++ [.errFile src]⟩
        | some fs2 => processGroup fmt opFail sys move ext pattern rest
            ⟨bump st.counts ext, fs2, st.events ++ [.moved src dst]⟩
      else
        match pyCopy2 st.fs src dst with
        | none => processGroup fmt opFail sys move ext pattern rest
            ⟨st.counts, st.fs, st.events ++ [.errFile src]⟩
        | some fs2 => processGroup fmt opFail sys move ext pattern rest
            ⟨bump st.counts ext, fs2, st.events ++ [.copied src dst]⟩

/-- The outer loop of organize_files (lines 99-122) over the extension
groups in dict order: sort the group, resolve the pattern (line 104),
process the numbered files. -/
def processGroups (fmt : Fmt) (opFail : OpFail) (sys : SmartFilingSystem) (move : Bool) :
    ExtMap → RunResult → Except PyErr RunResult
  | [], st => .ok st
  | (ext, files) :: rest, st =>
    match processGroup fmt opFail sys move ext
        (dictGetD sys.naming_patterns ext sys.default_pattern) (numbering files) st with
    | .error e => .error e
    | .ok st2 => processGroups fmt opFail sys move rest st2

/-- organize_files (lines 77-124).  A missing source is reported and
yields an empty result; an existing non-directory source raises out of
iterdir; otherwise the discovered groups are processed. -/
def organize_files (fmt : Fmt) (opFail : OpFail) (sys : SmartFilingSystem) (fs : FS)
    (source_folder : FPath) (recursive move : Bool) : Except PyErr RunResult :=
  if pyExists fs source_folder then
    match get_files_by_extension fs source_folder recursive with
    | .error e => .error e
    | .ok groups => processGroups fmt opFail sys move groups ⟨[], fs, []⟩
  else .ok ⟨[], fs, [.errMissing source_folder]⟩

/-! ### Result accessors and concrete oracles for closed statements -/

/-- The counts dict returned by a run (empty on a raised exception). -/
def resCounts : Except PyErr RunResult → List (Name × Nat)
  | .ok st => st.counts
  | .error _ => []

/-- The trace of a run (empty on a raised exception). -/
def resEvents : Except PyErr RunResult → List Event
  | .ok st => st.events
  | .error _ => []

/-- Content of path p in the filesystem left by a run. -/
def resLookup (r : Except PyErr RunResult) (p : FPath) : Option Nat :=
  match r with
  | .ok st => lookupFile st.fs p
  | .error _ => none

/-- Two-decimal-digit rendering of i, as "%02d" produces for i < 100. -/
def pad2 (i : Nat) : Name := String.mk [Char.ofNat (48 + i / 10 % 10), Char.ofNat (48 + i % 10)]

/-- A well-formed formatter oracle: the pattern string is a literal
prefix followed by the two-digit number ("file_" formats like the
prefix of "file_%02d"). -/
def fmtStd : Fmt := fun p i => some (p ++ pad2 i)

/-- A malformed pattern's formatter: str.format always raises. -/
def fmtRaise : Fmt := fun _ _ => none

/-- The environment oracle under which no copy/move fails externally. -/
def noFail : OpFail := fun _ _ => false

/-! ### The pathlib path order: totality, transitivity, antisymmetry -/

theorem charToNat_inj {a b : Char} (h : a.toNat = b.toNat) : a = b := by
  apply Char.eq_of_val_eq
  apply UInt32.eq_of_toBitVec_eq
  exact BitVec.eq_of_toNat_eq h

theorem charsLt_nil_right : ∀ b : List Char, charsLt b [] = false
  | [] => rfl
  | _ :: _ => rfl

theorem charsLt_asymm : ∀ a b, charsLt a b = true → charsLt b a = false
  | [], [], h => by simp [charsLt] at h
  | [], _ :: _, _ => rfl
  | _ :: _, [], h => by simp [charsLt] at h
  | a :: as, b :: bs, h => by
    simp only [charsLt] at h ⊢
    by_cases h1 : a.toNat < b.toNat
    · have h2 : ¬ b.toNat < a.toNat := by omega
      simp [h1, h2]
    · by_cases h2 : b.toNat < a.toNat
      · simp [h1, h2] at h
      · simp only [h1, h2, if_false] at h ⊢
        exact charsLt_asymm as bs h

theorem charsLt_trans : ∀ a b c, charsLt a b = true → charsLt b c = true → charsLt a c = true
  | _, b, [], _, h2 => by rw [charsLt_nil_right b] at h2; cases h2
  | [], _, _ :: _, _, _ => rfl
  | _ :: _, [], _, h1, _ => by simp [charsLt] at h1
  | a :: as, b :: bs, c :: cs, h1, h2 => by
    simp only [charsLt] at h1 h2 ⊢
    by_cases hab : a.toNat < b.toNat <;> by_cases hbc : b.toNat < c.toNat
    · have hac : a.toNat < c.toNat := by omega
      simp [hac]
    · by_cases hcb : c.toNat < b.toNat
      · simp [hbc, hcb] at h2
      · have hac : a.toNat < c.toNat := by omega
        simp [hac]
    · by_cases hba : b.toNat < a.toNat
      · simp [hab, hba] at h1
      · have hac : a.toNat < c.toNat := by omega
        simp [hac]
    · by_cases hba : b.toNat < a.toNat
      · simp [hab, hba] at h1
      · by_cases hcb : c.toNat < b.toNat
        · simp [hbc, hcb] at h2
        · have hac : ¬ a.toNat < c.toNat := by omega
          have hca : ¬ c.toNat < a.toNat := by omega
          simp only [hab, hba, if_false] at h1
          simp only [hbc, hcb, if_false] at h2
          simp only [hac, hca, if_false]
          exact charsLt_trans as bs cs h1 h2

theorem charsLt_eq_of_not : ∀ a b, charsLt a b = false → charsLt b a = false → a = b
  | [], [], _, _ => rfl
  | [], _ :: _, h, _ => by simp [charsLt] at h
  | _ :: _, [], _, h => by simp [charsLt] at h
  | a :: as, b :: bs, h1, h2 => by
    simp only [charsLt] at h1 h2
    by_cases hab : a.toNat < b.toNat
    · simp [hab] at h1
    · by_cases hba : b.toNat < a.toNat
      · simp [hba, hab] at h2
      · have hc : a = b := charToNat_inj (by omega)
        subst hc
        simp only [hab, if_false, Nat.lt_irrefl] at h1 h2
        rw [charsLt_eq_of_not as bs h1 h2]

theorem strEq_of_data {a b : Name} (h : a.data = b.data) : a = b := by
  cases a; cases b; cases h; rfl

theorem strLt_asymm (a b : Name) (h : strLt a b = true) : strLt b a = false :=
  charsLt_asymm a.data b.data h

theorem strLt_trans (a b c : Name) (h1 : strLt a b = true) (h2 : strLt b c = true) :
    strLt a c = true :=
  charsLt_trans a.data b.data c.data h1 h2

theorem strLt_eq_of_not (a b : Name) (h1 : strLt a b = false) (h2 : strLt b a = false) : a = b :=
  strEq_of_data (charsLt_eq_of_not a.data b.data h1 h2)

theorem pathLt_asymm : ∀ p q : FPath, pathLt p q = true → pathLt q p = false
  | [], [], h => by simp [pathLt] at h
  | [], _ :: _, _ => rfl
  | _ :: _, [], h => by simp [pathLt] at h
  | a :: as, b :: bs, h => by
    simp only [pathLt] at h ⊢
    by_cases h1 : strLt a b = true
    · have h2 : strLt b a = false := strLt_asymm a b h1
      simp [h1, h2]
    · have h1f : strLt a b = false := by simpa using h1
      by_cases h2 : strLt b a = true
      · simp [h1f, h2] at h
      · have h2f : strLt b a = false := by simpa using h2
        simp only [h1f, h2f, if_false] at h ⊢
        exact pathLt_asymm as bs h

theorem pathLt_nil_right : ∀ p : FPath, pathLt p [] = false
  | [] => rfl
  | _ :: _ => rfl

theorem pathLt_trans : ∀ p q r : FPath, pathLt p q = true → pathLt q r = true → pathLt p r = true
  | _, q, [], _, h2 => by rw [pathLt_nil_right q] at h2; cases h2
  | [], _, _ :: _, _, _ => rfl
  | _ :: _, [], _, h1, _ => by simp [pathLt] at h1
  | a :: as, b :: bs, c :: cs, h1, h2 => by
    simp only [pathLt] at h1 h2 ⊢
    by_cases hab : strLt a b = true <;> by_cases hbc : strLt b c = true
    · have : strLt a c = true := strLt_trans a b c hab hbc
      simp [this]
    · have hbcf : strLt b c = false := by simpa using hbc
      by_cases hcb : strLt c b = true
      · simp [hbcf, hcb] at h2
      · have hcbf : strLt c b = false := by simpa using hcb
        have : b = c := strLt_eq_of_not b c hbcf hcbf
        subst this
        simp [hab]
    · have habf : strLt a b = false := by simpa using hab
      by_cases hba : strLt b a = true
      · simp [habf, hba] at h1
      · have hbaf : strLt b a = false := by simpa using hba
        have : a = b := strLt_eq_of_not a b habf hbaf
        subst this
        simp [hbc]
    · have habf : strLt a b = false := by simpa using hab
      have hbcf : strLt b c = false := by simpa using hbc
      by_cases hba : strLt b a = true
      · simp [habf, hba] at h1
      · by_cases hcb : strLt c b = true
        · simp [hbcf, hcb] at h2
        · have hbaf : strLt b a = false := by simpa using hba
          have hcbf : strLt c b = false := by simpa using hcb
          have hac : a = b := strLt_eq_of_not a b habf hbaf
          subst hac
          simp only [habf, hbaf, if_false] at h1
          simp only [hbcf, hcbf, if_false] at h2
          simp only [habf, hbaf, hbcf, hcbf, if_false]
          exact pathLt_trans as bs cs h1 h2

theorem pathLt_eq_of_not : ∀ p q : FPath, pathLt p q = false → pathLt q p = false → p = q
  | [], [], _, _ => rfl
  | [], _ :: _, h, _ => by simp [pathLt] at h
  | _ :: _, [], _, h => by simp [pathLt] at h
  | a :: as, b :: bs, h1, h2 => by
    simp only [pathLt] at h1 h2
    by_cases hab : strLt a b = true
    · simp [hab] at h1
    · by_cases hba : strLt b a = true
      · simp [hba, hab] at h2
      · have habf : strLt a b = false := by simpa using hab
        have hbaf : strLt b a = false := by simpa using hba
        have : a = b := strLt_eq_of_not a b habf hbaf
        subst this
        simp only [habf, hbaf, if_false] at h1 h2
        rw [pathLt_eq_of_not as bs h1 h2]

instance : IsTotal FPath pLe :=
  ⟨fun p q => by
    by_cases h : pathLt q p = true
    · exact Or.inr (pathLt_asymm q p h)
    · exact Or.inl (by simpa using h)⟩

instance : IsTrans FPath pLe :=
  ⟨fun p q r h1 h2 => by
    have h1f : pathLt q p = false := h1
    have h2f : pathLt r q = false := h2
    show pathLt r p = false
    cases hrp : pathLt r p with
    | false => rfl
    | true =>
      cases hqr : pathLt q r with
      | true =>
        have : pathLt q p = true := pathLt_trans q r p hqr hrp
        rw [this] at h1f; cases h1f
      | false =>
        have : q = r := pathLt_eq_of_not q r hqr h2f
        subst this
        rw [hrp] at h1f; cases h1f⟩

instance : IsAntisymm FPath pLe :=
  ⟨fun p q h1 h2 => pathLt_eq_of_not p q h2 h1⟩

theorem enumFromMapSnd : ∀ (n : Nat) (l : List FPath), (List.enumFrom n l).map Prod.snd = l
  | _, [] => rfl
  | n, a :: as => by simp only [List.enumFrom, List.map]; rw [enumFromMapSnd (n + 1) as]

theorem enumFromMapFst :
    ∀ (n : Nat) (l : List FPath), (List.enumFrom n l).map Prod.fst = List.range' n l.length
  | _, [] => rfl
  | n, a :: as => by
    simp only [List.enumFrom, List.map, List.length, List.range'_succ]
    rw [enumFromMapFst (n + 1) as]

/-! ### Concrete runs used by closed statements -/

/-- A target configuration whose default pattern is the literal prefix
"file_" (so fmtStd renders file_01, file_02, ...). -/
def sysT : SmartFilingSystem := set_default_pattern (SmartFilingSystem.init ["t"]) "file_"

/-- Source tree with two txt files in the sibling directories r/a and
r/a.b, plus the target directory t. -/
def fsOrd : FS :=
  { files := [(["r", "a", "z.txt"], 1), (["r", "a.b", "y.txt"], 2)]
  , dirs := [["r"], ["r", "a"], ["r", "a.b"], ["t"]] }

/-- A snapshot in which the source directory is the target directory t
itself and t already contains a file named file_01.txt. -/
def fsOverlap : FS :=
  { files := [(["t", "a.txt"], 0), (["t", "file_01.txt"], 1)], dirs := [["t"]] }

/-! ### C2: numbering and ordering of extension groups -/

/-- C2 counterexample: in the tree fsOrd the code assigns number 1 to
r/a/z.txt, although the full path string "r/a.b/y.txt" precedes
"r/a/z.txt" in ascending lexicographic string order — so the assignment
is not the function given by sorting full path strings. -/
theorem C2_counterexample :
    resEvents (organize_files fmtStd noFail sysT fsOrd ["r"] true false)
      = [.copied ["r", "a", "z.txt"] ["t", "file_01.txt"],
         .copied ["r", "a.b", "y.txt"] ["t", "file_02.txt"]]
    ∧ strLt (pathStr ["r", "a.b", "y.txt"]) (pathStr ["r", "a", "z.txt"]) = true := by
  exact ⟨rfl, rfl⟩

/-- C2 (amended): for every extension group, the numbered list that
organize_files processes carries the numbers 1..len(group) exactly, its
paths are a permutation of the group sorted under the pathlib order
(lexicographic over the component sequence, not over the joined path
string), and it is the unique such sorted arrangement — hence the same
input yields the same numbering on repeated runs. -/
theorem C2_numbering_by_component_order (files : List FPath) :
    (numbering files).map Prod.fst = List.range' 1 files.length
    ∧ ((numbering files).map Prod.snd).Perm files
    ∧ List.Sorted pLe ((numbering files).map Prod.snd)
    ∧ ∀ l2 : List FPath, l2.Perm files → List.Sorted pLe l2 →
        l2 = (numbering files).map Prod.snd := by
  have hp : (sortPaths files).Perm files := List.perm_insertionSort pLe files
  have hs : List.Sorted pLe (sortPaths files) := List.sorted_insertionSort pLe files
  refine ⟨?_, ?_, ?_, ?_⟩
  · rw [numbering, enumFromMapFst, hp.length_eq]
  · rw [numbering, enumFromMapSnd]; exact hp
  · rw [numbering, enumFromMapSnd]; exact hs
  · intro l2 h2 hs2
    rw [numbering, enumFromMapSnd]
    exact List.eq_of_perm_of_sorted (h2.trans hp.symm) hs2 hs

/-- C2 (amended) witness: the pieces of the amended statement at the
concrete two-file group of fsOrd. -/
theorem C2_numbering_witness :
    (numbering [["r", "a", "z.txt"], ["r", "a.b", "y.txt"]]).map Prod.fst = [1, 2]
    ∧ ((numbering [["r", "a", "z.txt"], ["r", "a.b", "y.txt"]]).map Prod.snd).Perm
        [["r", "a", "z.txt"], ["r", "a.b", "y.txt"]]
    ∧ [["r", "a", "z.txt"], ["r", "a.b", "y.txt"]]
        = (numbering [["r", "a", "z.txt"], ["r", "a.b", "y.txt"]]).map Prod.snd := by
  have h := C2_numbering_by_component_order [["r", "a", "z.txt"], ["r", "a.b", "y.txt"]]
  exact ⟨h.1, h.2.1, h.2.2.2 [["r", "a", "z.txt"], ["r", "a.b", "y.txt"]]
    (by decide) (by decide)⟩

/-! ### C3: missing source root -/

/-- C3: when the source root does not exist, organize_files reports the
condition (the error message event), returns an empty counts dict,
leaves the filesystem untouched and raises nothing. -/
theorem C3_missing_source (fmt : Fmt) (opFail : OpFail) (sys : SmartFilingSystem) (fs : FS)
    (src : FPath) (recursive move : Bool) (h : pyExists fs src = false) :
    organize_files fmt opFail sys fs src recursive move = .ok ⟨[], fs, [.errMissing src]⟩ := by
  simp [organize_files, h]

/-- C3 witness at a concrete missing path. -/
theorem C3_missing_source_witness :
    pyExists fsOrd ["nope"] = false
    ∧ organize_files fmtStd noFail sysT fsOrd ["nope"] false false
        = .ok ⟨[], fsOrd, [.errMissing ["nope"]]⟩ :=
  ⟨by decide, C3_missing_source fmtStd noFail sysT fsOrd ["nope"] false false (by decide)⟩

/-! ### C10: source exists but is a regular file -/

/-- C10: when the source path exists as a regular file, iterdir raises
NotADirectoryError and the exception propagates out of organize_files
instead of an empty result being returned. -/
theorem C10_source_is_file_raises (fmt : Fmt) (opFail : OpFail) (sys : SmartFilingSystem)
    (fs : FS) (src : FPath) (recursive move : Bool)
    (hf : isFile fs src = true) (hd : isDir fs src = false) :
    organize_files fmt opFail sys fs src recursive move = .error .notADirectory := by
  simp [organize_files, pyExists, get_files_by_extension, hf, hd]

/-- C10 witness: organizing with the file r/a/z.txt as source root. -/
theorem C10_source_is_file_raises_witness :
    isFile fsOrd ["r", "a", "z.txt"] = true
    ∧ isDir fsOrd ["r", "a", "z.txt"] = false
    ∧ organize_files fmtStd noFail sysT fsOrd ["r", "a", "z.txt"] false false
        = .error .notADirectory :=
  ⟨by decide, by decide,
    C10_source_is_file_raises fmtStd noFail sysT fsOrd ["r", "a", "z.txt"] false false
      (by decide) (by decide)⟩

/-! ### C1 counterexample: a formatting failure escapes organize_files -/

/-- C1 counterexample: with a malformed (always-raising) pattern and two
discoverable files, organize_files raises instead of reporting, skipping
the file and continuing — the exception from the formatting failure
escapes organize_files. -/
theorem C1_counterexample :
    organize_files fmtRaise noFail sysT fsOrd ["r"] true false = .error .formatError := by
  exact rfl

/-! ### C5 counterexample: copy mode can destroy a source file -/

/-- C5 counterexample: when the source directory is the target directory
itself, copy mode overwrites the source file t/file_01.txt (content 1)
with the copy of t/a.txt (content 0): a source file is not intact after
a copy-mode run. -/
theorem C5_counterexample :
    lookupFile fsOverlap ["t", "file_01.txt"] = some 1
    ∧ resLookup (organize_files fmtStd noFail sysT fsOverlap ["t"] false false)
        ["t", "file_01.txt"] = some 0 := by
  exact ⟨rfl, rfl⟩

/-! ### Lower-casing and dict lemmas -/

theorem lowerChar_toNat (c : Char) (h : 65 ≤ c.toNat ∧ c.toNat ≤ 90) :
    (lowerChar c).toNat = c.toNat + 32 := by
  rw [lowerChar, dif_pos h]; rfl

theorem lowerChar_of_not (c : Char) (h : ¬ (65 ≤ c.toNat ∧ c.toNat ≤ 90)) :
    lowerChar c = c := by
  rw [lowerChar, dif_neg h]

theorem lowerChar_idem (c : Char) : lowerChar (lowerChar c) = lowerChar c := by
  by_cases h : 65 ≤ c.toNat ∧ c.toNat ≤ 90
  · have h2 : (lowerChar c).toNat = c.toNat + 32 := lowerChar_toNat c h
    exact lowerChar_of_not _ (by omega)
  · rw [lowerChar_of_not c h, lowerChar_of_not c h]

theorem pyLower_idem (s : Name) : pyLower (pyLower s) = pyLower s := by
  simp only [pyLower, List.map_map]
  exact congrArg String.mk (List.map_congr_left (fun a _ => lowerChar_idem a))

theorem lowerChar_eq_dot (c : Char) (h : lowerChar c = '.') : c = '.' := by
  by_cases hr : 65 ≤ c.toNat ∧ c.toNat ≤ 90
  · have h1 : (lowerChar c).toNat = c.toNat + 32 := lowerChar_toNat c hr
    rw [h] at h1
    have h46 : ('.').toNat = 46 := rfl
    rw [h46] at h1
    exact absurd h1 (by omega)
  · rw [lowerChar_of_not c hr] at h
    exact h

theorem head_dropWhile_false (p : Char → Bool) :
    ∀ (l : List Char) (c : Char), (l.dropWhile p).head? = some c → p c = false
  | [], c, h => by simp [List.dropWhile] at h
  | a :: as, c, h => by
    by_cases hp : p a
    · rw [List.dropWhile_cons, if_pos hp] at h
      exact head_dropWhile_false p as c h
    · rw [List.dropWhile_cons, if_neg hp] at h
      simp only [List.head?_cons, Option.some.injEq] at h
      subst h
      simpa using hp

theorem dictGetD_dictInsert_self (m : List (Name × Name)) (k v d : Name) :
    dictGetD (dictInsert m k v) k d = v := by
  induction m with
  | nil => simp [dictInsert, dictGetD]
  | cons hd rest ih =>
    obtain ⟨k2, v2⟩ := hd
    by_cases hb : (k2 == k) = true
    · simp [dictInsert, dictGetD, hb]
    · simp only [dictInsert, dictGetD, hb, Bool.false_eq_true, if_false]
      exact ih

theorem dictGetD_of_not_mem (m : List (Name × Name)) (k d : Name)
    (h : ∀ v, (k, v) ∉ m) : dictGetD m k d = d := by
  induction m with
  | nil => rfl
  | cons hd rest ih =>
    obtain ⟨k2, v2⟩ := hd
    by_cases hb : (k2 == k) = true
    · have : k2 = k := by simpa using hb
      subst this
      exact absurd (List.mem_cons_self _ _) (h v2)
    · simp only [dictGetD, hb, Bool.false_eq_true, if_false]
      exact ih (fun v hv => h v (List.mem_cons_of_mem _ hv))

/-! ### C8: case-insensitive grouping and pattern lookup -/

/-- C8: the grouping key of any file name is already lower-cased; after
registering a pattern for an extension whose normalised form equals that
key (e.g. "jpg" for the file "A.JPG"), the lookup organize_files
performs resolves to that pattern; and for keys with no registered
pattern the lookup yields the default pattern. -/
theorem C8_case_insensitive_lookup (sys : SmartFilingSystem) (e pat n : Name) :
    extKey n = pyLower (extKey n)
    ∧ (pyLower (lstripDots e) = extKey n →
        dictGetD (set_naming_pattern sys e pat).naming_patterns (extKey n)
          (set_naming_pattern sys e pat).default_pattern = pat)
    ∧ ((∀ v, (extKey n, v) ∉ sys.naming_patterns) →
        dictGetD sys.naming_patterns (extKey n) sys.default_pattern = sys.default_pattern) := by
  refine ⟨(pyLower_idem (lstripDots (pySuffix n))).symm, ?_, ?_⟩
  · intro h
    simp only [set_naming_pattern]
    rw [← h]
    exact dictGetD_dictInsert_self sys.naming_patterns (pyLower (lstripDots e)) pat
      sys.default_pattern
  · intro h
    exact dictGetD_of_not_mem sys.naming_patterns (extKey n) sys.default_pattern h

/-- C8 witness: the file A.JPG and a pattern registered for jpg, over
the initial configuration. -/
theorem C8_case_insensitive_lookup_witness :
    pyLower (lstripDots "jpg") = extKey "A.JPG"
    ∧ dictGetD (set_naming_pattern (SmartFilingSystem.init ["t"]) "jpg" "img_").naming_patterns
        (extKey "A.JPG")
        (set_naming_pattern (SmartFilingSystem.init ["t"]) "jpg" "img_").default_pattern = "img_"
    ∧ dictGetD (SmartFilingSystem.init ["t"]).naming_patterns (extKey "A.JPG")
        (SmartFilingSystem.init ["t"]).default_pattern
        = (SmartFilingSystem.init ["t"]).default_pattern :=
  ⟨by decide,
    (C8_case_insensitive_lookup (SmartFilingSystem.init ["t"]) "jpg" "img_" "A.JPG").2.1
      (by decide),
    (C8_case_insensitive_lookup (SmartFilingSystem.init ["t"]) "jpg" "img_" "A.JPG").2.2
      (fun v hv => List.not_mem_nil (extKey "A.JPG", v) hv)⟩

/-! ### C9: the pattern dict keys stay unique, lower-cased, dot-free -/

/-- The key invariant of the claim: unique keys, each its own lowercase
form, none with a leading dot. -/
def KeysOK (m : List (Name × Name)) : Prop :=
  (m.map Prod.fst).Nodup ∧ ∀ k ∈ m.map Prod.fst, k = pyLower k ∧ k.data.head? ≠ some '.'

/-- One mutation of the configuration: either setter, or an organize run
(whose configuration argument is read-only in the source: lines 99-122
use self.naming_patterns only through .get). -/
inductive SysOp where
  | setPat (extension pattern : Name)
  | setDefault (pattern : Name)
  | organize (fmt : Fmt) (opFail : OpFail) (fs : FS) (src : FPath) (recursive move : Bool)

/-- Configuration after one call. -/
def applySysOp (sys : SmartFilingSystem) : SysOp → SmartFilingSystem
  | .setPat e p => set_naming_pattern sys e p
  | .setDefault p => set_default_pattern sys p
  | .organize _ _ _ _ _ _ => sys

theorem mem_dictInsert_keys (m : List (Name × Name)) (k v : Name) (x : Name)
    (h : x ∈ (dictInsert m k v).map Prod.fst) : x ∈ m.map Prod.fst ∨ x = k := by
  induction m with
  | nil => simpa [dictInsert] using h
  | cons hd rest ih =>
    obtain ⟨k2, v2⟩ := hd
    by_cases hb : (k2 == k) = true
    · simp only [dictInsert, hb, if_true, List.map_cons, List.mem_cons] at h
      rcases h with h | h
      · exact Or.inl (by simp [h])
      · exact Or.inl (by simp [h])
    · simp only [dictInsert, hb, Bool.false_eq_true, if_false, List.map_cons, List.mem_cons] at h
      rcases h with h | h
      · exact Or.inl (by simp [h])
      · rcases ih h with h2 | h2
        · exact Or.inl (List.mem_cons_of_mem _ h2)
        · exact Or.inr h2

theorem keysOK_dictInsert (m : List (Name × Name)) (k v : Name) (hm : KeysOK m)
    (hk1 : k = pyLower k) (hk2 : k.data.head? ≠ some '.') : KeysOK (dictInsert m k v) := by
  obtain ⟨hnd, hall⟩ := hm
  induction m with
  | nil => exact ⟨by simp [dictInsert], by simpa [dictInsert] using And.intro hk1 hk2⟩
  | cons hd rest ih =>
    obtain ⟨k2, v2⟩ := hd
    simp only [List.map_cons, List.nodup_cons] at hnd
    have hall2 : ∀ x ∈ rest.map Prod.fst, x = pyLower x ∧ x.data.head? ≠ some '.' :=
      fun x hx => hall x (List.mem_cons_of_mem _ hx)
    have hk2prop := hall (k2 : Name) (List.mem_cons_self _ _)
    by_cases hb : (k2 == k) = true
    · constructor
      · simpa [dictInsert, hb] using hnd
      · intro x hx
        simp only [dictInsert, hb, if_true, List.map_cons, List.mem_cons] at hx
        rcases hx with hx | hx
        · exact hx ▸ hk2prop
        · exact hall2 x hx
    · obtain ⟨ihnd, ihall⟩ := ih hnd.2 hall2
      constructor
      · simp only [dictInsert, hb, Bool.false_eq_true, if_false, List.map_cons, List.nodup_cons]
        refine ⟨fun hc => ?_, ihnd⟩
        rcases mem_dictInsert_keys rest k v k2 hc with h2 | h2
        · exact hnd.1 h2
        · exact hb (by simp [h2])
      · intro x hx
        simp only [dictInsert, hb, Bool.false_eq_true, if_false, List.map_cons,
          List.mem_cons] at hx
        rcases hx with hx | hx
        · exact hx ▸ hk2prop
        · exact ihall x hx

theorem normKey_ok (e : Name) :
    pyLower (lstripDots e) = pyLower (pyLower (lstripDots e))
    ∧ (pyLower (lstripDots e)).data.head? ≠ some '.' := by
  constructor
  · exact (pyLower_idem (lstripDots e)).symm
  · intro hc
    simp only [pyLower, lstripDots, List.head?_map] at hc
    rcases Option.map_eq_some'.mp hc with ⟨c, hc1, hc2⟩
    have hcne : (c == '.') = false := head_dropWhile_false _ e.data c hc1
    have : c = '.' := lowerChar_eq_dot c hc2
    rw [this] at hcne
    simp at hcne

theorem keysOK_applySysOp (sys : SmartFilingSystem) (op : SysOp)
    (h : KeysOK sys.naming_patterns) : KeysOK (applySysOp sys op).naming_patterns := by
  cases op with
  | setPat e p =>
    have hn := normKey_ok e
    exact keysOK_dictInsert sys.naming_patterns (pyLower (lstripDots e)) p h hn.1 hn.2
  | setDefault p => exact h
  | organize fmt opFail fs src recursive move => exact h

/-- C9: after any sequence of set_naming_pattern, set_default_pattern
and organize_files calls starting from a fresh configuration, the keys
of the naming-pattern dict are pairwise distinct, equal to their own
lowercase form, and free of a leading dot. -/
theorem C9_keys_normalized (folder : FPath) (ops : List SysOp) :
    KeysOK ((ops.foldl applySysOp (SmartFilingSystem.init folder)).naming_patterns) := by
  suffices h : ∀ (sys : SmartFilingSystem), KeysOK sys.naming_patterns →
      KeysOK ((ops.foldl applySysOp sys).naming_patterns) by
    exact h (SmartFilingSystem.init folder)
      ⟨by simp [SmartFilingSystem.init],
        fun k hk => absurd hk (by simp [SmartFilingSystem.init])⟩
  induction ops with
  | nil => exact fun sys h => h
  | cons op rest ih =>
    intro sys h
    exact ih (applySysOp sys op) (keysOK_applySysOp sys op h)

/-! ### C1: formatting failures propagate out of organize_files -/

theorem processGroup_err_of_fmt_none (fmt : Fmt) (opFail : OpFail) (sys : SmartFilingSystem)
    (move : Bool) (ext pattern : Name) :
    ∀ (lst : List (Nat × FPath)) (st : RunResult),
      (∃ pr ∈ lst, fmt pattern pr.1 = none) →
      processGroup fmt opFail sys move ext pattern lst st = .error .formatError
  | [], _, h => absurd h (by simp)
  | (i, src) :: rest, st, h => by
    cases hf : fmt pattern i with
    | none => simp [processGroup, hf]
    | some base =>
      have hrest : ∃ pr ∈ rest, fmt pattern pr.1 = none := by
        rcases h with ⟨pr, hpr, hnone⟩
        rcases List.mem_cons.mp hpr with hh | hmem
        · rw [hh] at hnone
          rw [hf] at hnone
          cases hnone
        · exact ⟨pr, hmem, hnone⟩
      simp only [processGroup, hf]
      split
      · exact processGroup_err_of_fmt_none fmt opFail sys move ext pattern rest _ hrest
      · split
        · split
          · exact processGroup_err_of_fmt_none fmt opFail sys move ext pattern rest _ hrest
          · exact processGroup_err_of_fmt_none fmt opFail sys move ext pattern rest _ hrest
        · split
          · exact processGroup_err_of_fmt_none fmt opFail sys move ext pattern rest _ hrest
          · exact processGroup_err_of_fmt_none fmt opFail sys move ext pattern rest _ hrest

theorem processGroup_err_shape (fmt : Fmt) (opFail : OpFail) (sys : SmartFilingSystem)
    (move : Bool) (ext pattern : Name) :
    ∀ (lst : List (Nat × FPath)) (st : RunResult),
      processGroup fmt opFail sys move ext pattern lst st = .error .formatError
      ∨ ∃ st2, processGroup fmt opFail sys move ext pattern lst st = .ok st2
  | [], st => Or.inr ⟨st, rfl⟩
  | (i, src) :: rest, st => by
    cases hf : fmt pattern i with
    | none => exact Or.inl (by simp [processGroup, hf])
    | some base =>
      simp only [processGroup, hf]
      split
      · exact processGroup_err_shape fmt opFail sys move ext pattern rest _
      · split
        · split
          · exact processGroup_err_shape fmt opFail sys move ext pattern rest _
          · exact processGroup_err_shape fmt opFail sys move ext pattern rest _
        · split
          · exact processGroup_err_shape fmt opFail sys move ext pattern rest _
          · exact processGroup_err_shape fmt opFail sys move ext pattern rest _

theorem processGroups_err_of_fmt_none (fmt : Fmt) (opFail : OpFail) (sys : SmartFilingSystem)
    (move : Bool) :
    ∀ (groups : ExtMap) (st : RunResult),
      (∃ kv ∈ groups, ∃ pr ∈ numbering kv.2,
        fmt (dictGetD sys.naming_patterns kv.1 sys.default_pattern) pr.1 = none) →
      processGroups fmt opFail sys move groups st = .error .formatError
  | [], _, h => absurd h (by simp)
  | (ext, files) :: rest, st, h => by
    by_cases hhead : ∃ pr ∈ numbering files,
        fmt (dictGetD sys.naming_patterns ext sys.default_pattern) pr.1 = none
    · have herr := processGroup_err_of_fmt_none fmt opFail sys move ext
        (dictGetD sys.naming_patterns ext sys.default_pattern) (numbering files) st hhead
      simp [processGroups, herr]
    · have hrest : ∃ kv ∈ rest, ∃ pr ∈ numbering kv.2,
          fmt (dictGetD sys.naming_patterns kv.1 sys.default_pattern) pr.1 = none := by
        rcases h with ⟨kv, hkv, hex⟩
        rcases List.mem_cons.mp hkv with hh | hmem
        · rw [hh] at hex
          exact absurd hex hhead
        · exact ⟨kv, hmem, hex⟩
      rcases processGroup_err_shape fmt opFail sys move ext
          (dictGetD sys.naming_patterns ext sys.default_pattern) (numbering files) st with
        herr | ⟨st2, hok⟩
      · simp [processGroups, herr]
      · simp only [processGroups, hok]
        exact processGroups_err_of_fmt_none fmt opFail sys move rest st2 hrest

/-- C1 (amended): a formatting failure is not contained per file — if for
some discovered extension group the resolved pattern fails to format at
some assigned index, organize_files raises: it returns the propagated
exception instead of a result map, so the remaining files of the batch
are not processed. -/
theorem C1_format_failure_propagates (fmt : Fmt) (opFail : OpFail) (sys : SmartFilingSystem)
    (fs : FS) (src : FPath) (recursive move : Bool)
    (hdir : isDir fs src = true)
    (hfail : ∃ kv ∈ getFilesAux fs (dirDepth fs + 1) src recursive,
      ∃ pr ∈ numbering kv.2,
        fmt (dictGetD sys.naming_patterns kv.1 sys.default_pattern) pr.1 = none) :
    organize_files fmt opFail sys fs src recursive move = .error .formatError := by
  have hex : pyExists fs src = true := by simp [pyExists, hdir]
  simp only [organize_files, hex, if_true, get_files_by_extension, hdir]
  exact processGroups_err_of_fmt_none fmt opFail sys move _ _ hfail

/-- A formatter that raises exactly at index 2 (as a pattern whose
placeholder is malformed for two-digit values would). -/
def fmtFailAt2 : Fmt := fun p i => if i == 2 then none else some (p ++ pad2 i)

/-- C1 (amended) witness: in the two-file txt group of fsOrd the pattern
formats file 1 but raises at file 2, and organize_files propagates the
exception. -/
theorem C1_format_failure_propagates_witness :
    isDir fsOrd ["r"] = true
    ∧ (∃ kv ∈ getFilesAux fsOrd (dirDepth fsOrd + 1) ["r"] true,
        ∃ pr ∈ numbering kv.2,
          fmtFailAt2 (dictGetD sysT.naming_patterns kv.1 sysT.default_pattern) pr.1 = none)
    ∧ organize_files fmtFailAt2 noFail sysT fsOrd ["r"] true false = .error .formatError :=
  ⟨by decide, by decide,
    C1_format_failure_propagates fmtFailAt2 noFail sysT fsOrd ["r"] true false
      (by decide) (by decide)⟩

/-! ### Discovery: membership and multiplicity across extension groups -/

/-- Multiplicity of the path p summed across all groups of m. -/
def countIn (m : ExtMap) (p : FPath) : Nat := (m.map (fun kv => kv.2.count p)).sum

/-- The grouping dict projected to an error-free result. -/
def resMap : Except PyErr ExtMap → ExtMap
  | .ok m => m
  | .error _ => []

theorem countIn_nil (p : FPath) : countIn [] p = 0 := rfl

theorem countIn_cons (kv : Name × List FPath) (rest : ExtMap) (p : FPath) :
    countIn (kv :: rest) p = kv.2.count p + countIn rest p := by
  simp [countIn]

theorem countIn_extMapApp (m : ExtMap) (e : Name) (ps : List FPath) (p : FPath) :
    countIn (extMapApp m e ps) p = countIn m p + ps.count p := by
  induction m with
  | nil => simp [extMapApp, countIn]
  | cons kv rest ih =>
    obtain ⟨k, l⟩ := kv
    by_cases hb : (k == e) = true
    · simp only [extMapApp, hb, if_true, countIn_cons, List.count_append]
      omega
    · simp only [extMapApp, hb, Bool.false_eq_true, if_false, countIn_cons, ih]
      omega

theorem countIn_baseFold (l : List FPath) (p : FPath) :
    ∀ m0 : ExtMap, countIn (l.foldl (fun m q => extMapApp m (extKey (lastName q)) [q]) m0) p
      = countIn m0 p + l.count p := by
  induction l with
  | nil => intro m0; simp
  | cons q rest ih =>
    intro m0
    simp only [List.foldl_cons]
    rw [ih, countIn_extMapApp]
    simp only [List.count_cons, List.count_nil]
    omega

theorem countIn_mergeFold (l2 : ExtMap) (p : FPath) :
    ∀ m0 : ExtMap, countIn (l2.foldl (fun m kv => extMapApp m kv.1 kv.2) m0) p
      = countIn m0 p + countIn l2 p := by
  induction l2 with
  | nil => intro m0; simp [countIn]
  | cons kv rest ih =>
    intro m0
    simp only [List.foldl_cons]
    rw [ih, countIn_extMapApp, countIn_cons]
    omega

theorem countIn_dirsFold (fs : FS) (fuel : Nat) (p : FPath) :
    ∀ (ds : List FPath) (m0 : ExtMap),
      countIn (ds.foldl (fun m d => (getFilesAux fs fuel d true).foldl
        (fun m2 kv => extMapApp m2 kv.1 kv.2) m) m0) p
      = countIn m0 p + (ds.map (fun d => countIn (getFilesAux fs fuel d true) p)).sum := by
  intro ds
  induction ds with
  | nil => intro m0; simp
  | cons d rest ih =>
    intro m0
    simp only [List.foldl_cons, List.map_cons, List.sum_cons]
    rw [ih, countIn_mergeFold]
    omega

theorem getFilesAux_succ_true (fs : FS) (fuel : Nat) (src p : FPath) :
    countIn (getFilesAux fs (fuel + 1) src true) p
      = (childFiles fs src).count p
        + ((childDirs fs src).map (fun d => countIn (getFilesAux fs fuel d true) p)).sum := by
  simp only [getFilesAux, if_true]
  rw [countIn_dirsFold, countIn_baseFold, countIn_nil]
  omega

theorem getFilesAux_succ_false (fs : FS) (fuel : Nat) (src p : FPath) :
    countIn (getFilesAux fs (fuel + 1) src false) p = (childFiles fs src).count p := by
  simp only [getFilesAux, Bool.false_eq_true, if_false]
  rw [countIn_baseFold, countIn_nil]
  omega

theorem isFile_iff (fs : FS) (p : FPath) : isFile fs p = true ↔ p ∈ filePaths fs :=
  List.elem_iff

theorem isDir_iff (fs : FS) (p : FPath) : isDir fs p = true ↔ p ∈ fs.dirs :=
  List.elem_iff

theorem mem_childFiles_iff (fs : FS) (d p : FPath) :
    p ∈ childFiles fs d ↔ p ∈ filePaths fs ∧ p.dropLast = d ∧ p ≠ [] := by
  rw [childFiles, List.mem_filter]
  constructor
  · rintro ⟨hm, hp⟩
    have hp2 : p.dropLast = d ∧ p.isEmpty = false := by simpa using hp
    refine ⟨hm, hp2.1, fun hnil => ?_⟩
    rw [hnil] at hp2
    simp at hp2
  · rintro ⟨hm, h1, h2⟩
    refine ⟨hm, ?_⟩
    have hb : p.isEmpty = false := by
      cases p with
      | nil => exact absurd rfl h2
      | cons a as => rfl
    simp [h1, hb]

theorem mem_childDirs_iff (fs : FS) (d q : FPath) :
    q ∈ childDirs fs d ↔ q ∈ fs.dirs ∧ q.dropLast = d ∧ q ≠ [] := by
  rw [childDirs, List.mem_filter]
  constructor
  · rintro ⟨hm, hp⟩
    have hp2 : q.dropLast = d ∧ q.isEmpty = false := by simpa using hp
    refine ⟨hm, hp2.1, fun hnil => ?_⟩
    rw [hnil] at hp2
    simp at hp2
  · rintro ⟨hm, h1, h2⟩
    refine ⟨hm, ?_⟩
    have hb : q.isEmpty = false := by
      cases q with
      | nil => exact absurd rfl h2
      | cons a as => rfl
    simp [h1, hb]

/-! ### Reachability by directory descent -/

/-- p is a regular file reachable from src by descending through
directories of the snapshot. -/
inductive Reaches (fs : FS) : FPath → FPath → Prop where
  | direct (src p : FPath) (hq : p.dropLast = src) (hne : p ≠ []) (hf : isFile fs p = true) :
      Reaches fs src p
  | step (src d p : FPath) (hd : d ∈ fs.dirs) (hq : d.dropLast = src) (hne : d ≠ [])
      (hr : Reaches fs d p) : Reaches fs src p

theorem length_eq_parent_succ {q d : FPath} (hq : q.dropLast = d) (hne : q ≠ []) :
    q.length = d.length + 1 := by
  have h1 := List.length_dropLast q
  rw [hq] at h1
  have h2 : 0 < q.length := List.length_pos.mpr hne
  omega

theorem parent_append_last {q : FPath} (hne : q ≠ []) :
    q = q.dropLast ++ [q.getLast hne] :=
  (List.dropLast_append_getLast hne).symm

theorem reaches_extend {fs : FS} {src p : FPath} (h : Reaches fs src p) :
    ∃ rest, rest ≠ [] ∧ p = src ++ rest := by
  induction h with
  | direct s q hq hne hf =>
    refine ⟨[q.getLast hne], by simp, ?_⟩
    rw [← hq]
    exact parent_append_last hne
  | step s d q hd hq hne hr ih =>
    rcases ih with ⟨rest, hrne, hrq⟩
    refine ⟨d.getLast hne :: rest, by simp, ?_⟩
    rw [hrq]
    conv_lhs => rw [parent_append_last hne, hq]
    rw [List.append_assoc, List.singleton_append]

theorem foldrMax_le (l : List Nat) : ∀ a ∈ l, a ≤ l.foldr Nat.max 0 := by
  induction l with
  | nil => intro a h; cases h
  | cons x rest ih =>
    intro a h
    rcases List.mem_cons.mp h with hh | h2
    · rw [hh]; exact Nat.le_max_left _ _
    · exact le_trans (ih a h2) (Nat.le_max_right _ _)

theorem mem_dirs_length_le (fs : FS) (d : FPath) (h : d ∈ fs.dirs) : d.length ≤ dirDepth fs :=
  foldrMax_le _ _ (List.mem_map_of_mem List.length h)

theorem exists_pos_of_sum_pos (ds : List FPath) (f : FPath → Nat)
    (h : 0 < (ds.map f).sum) : ∃ d ∈ ds, 0 < f d := by
  by_contra hc
  push_neg at hc
  have hz : (ds.map f).sum = 0 := List.sum_eq_zero (by
    intro x hx
    rcases List.mem_map.mp hx with ⟨d, hd, hfx⟩
    have := hc d hd
    omega)
  omega

theorem sum_map_eq_one (f : FPath → Nat) :
    ∀ (ds : List FPath), ds.Nodup → ∀ d0, d0 ∈ ds → f d0 = 1 →
      (∀ d ∈ ds, d ≠ d0 → f d = 0) → (ds.map f).sum = 1
  | [], _, d0, h, _, _ => absurd h (List.not_mem_nil d0)
  | d :: rest, hnd, d0, hmem, h1, h0 => by
    simp only [List.map_cons, List.sum_cons]
    rcases List.mem_cons.mp hmem with hh | hmem2
    · have hrest : (rest.map f).sum = 0 := List.sum_eq_zero (by
        intro x hx
        rcases List.mem_map.mp hx with ⟨d2, hd2, hfx⟩
        have hne : d2 ≠ d0 := by
          intro hceq
          rw [hceq, hh] at hd2
          exact (List.nodup_cons.mp hnd).1 hd2
        rw [← hfx]
        exact h0 d2 (List.mem_cons_of_mem _ hd2) hne)
      rw [← hh, h1, hrest]
    · have hdne : d ≠ d0 := by
        intro hceq
        rw [← hceq] at hmem2
        exact (List.nodup_cons.mp hnd).1 hmem2
      rw [h0 d (List.mem_cons_self _ _) hdne,
        sum_map_eq_one f rest (List.nodup_cons.mp hnd).2 d0 hmem2 h1
          (fun d2 hd2 hne => h0 d2 (List.mem_cons_of_mem _ hd2) hne)]

theorem count_eq_one_of_nodup_mem {l : List FPath} {p : FPath} (hnd : l.Nodup) (hm : p ∈ l) :
    l.count p = 1 := by
  induction l with
  | nil => cases hm
  | cons a rest ih =>
    rcases List.mem_cons.mp hm with hh | h2
    · have hnotin : p ∉ rest := by
        rw [hh]
        exact (List.nodup_cons.mp hnd).1
      rw [List.count_cons, List.count_eq_zero.mpr hnotin]
      simp [hh]
    · have ha : a ≠ p := by
        intro hceq
        rw [← hceq] at h2
        exact (List.nodup_cons.mp hnd).1 h2
      rw [List.count_cons, ih (List.nodup_cons.mp hnd).2 h2]
      simp [ha]

theorem getFilesAux_extend (fs : FS) :
    ∀ (fuel : Nat) (d p : FPath), 0 < countIn (getFilesAux fs fuel d true) p →
      ∃ rest, rest ≠ [] ∧ p = d ++ rest
  | 0, d, p, h => by simp [getFilesAux, countIn] at h
  | fuel + 1, d, p, h => by
    rw [getFilesAux_succ_true] at h
    by_cases hb : 0 < (childFiles fs d).count p
    · rcases (mem_childFiles_iff fs d p).mp (List.count_pos_iff.mp hb) with ⟨hmf, hmd, hmne⟩
      refine ⟨[p.getLast hmne], by simp, ?_⟩
      conv_lhs => rw [parent_append_last hmne]
      rw [hmd]
    · have hsum : 0 < ((childDirs fs d).map
          fun d2 => countIn (getFilesAux fs fuel d2 true) p).sum := by omega
      rcases exists_pos_of_sum_pos _ _ hsum with ⟨d2, hd2, hpos⟩
      rcases getFilesAux_extend fs fuel d2 p hpos with ⟨rest2, hne2, heq2⟩
      rcases (mem_childDirs_iff fs d d2).mp hd2 with ⟨_, hq2, hne3⟩
      have hd2eq : d2 = d ++ [d2.getLast hne3] := by
        conv_lhs => rw [parent_append_last hne3, hq2]
      refine ⟨d2.getLast hne3 :: rest2, by simp, ?_⟩
      rw [heq2]
      conv_lhs => rw [hd2eq]
      rw [List.append_assoc, List.singleton_append]

theorem getFilesAux_reaches (fs : FS) :
    ∀ (fuel : Nat) (d p : FPath), 0 < countIn (getFilesAux fs fuel d true) p → Reaches fs d p
  | 0, d, p, h => by simp [getFilesAux, countIn] at h
  | fuel + 1, d, p, h => by
    rw [getFilesAux_succ_true] at h
    by_cases hb : 0 < (childFiles fs d).count p
    · have hm := (mem_childFiles_iff fs d p).mp (List.count_pos_iff.mp hb)
      exact Reaches.direct d p hm.2.1 hm.2.2 ((isFile_iff fs p).mpr hm.1)
    · have hsum : 0 < ((childDirs fs d).map
          fun d2 => countIn (getFilesAux fs fuel d2 true) p).sum := by omega
      rcases exists_pos_of_sum_pos _ _ hsum with ⟨d2, hd2, hpos⟩
      rcases (mem_childDirs_iff fs d d2).mp hd2 with ⟨hdd, hq2, hne3⟩
      exact Reaches.step d d2 p hdd hq2 hne3 (getFilesAux_reaches fs fuel d2 p hpos)

/-! ### Exactly-once discovery -/

theorem getFilesAux_count_eq (fs : FS) (hnf : (filePaths fs).Nodup) (hnd : fs.dirs.Nodup) :
    ∀ (fuel : Nat) (src : FPath), src ∈ fs.dirs → dirDepth fs < src.length + fuel →
      ∀ p : FPath,
        (Reaches fs src p → countIn (getFilesAux fs fuel src true) p = 1)
        ∧ (¬ Reaches fs src p → countIn (getFilesAux fs fuel src true) p = 0)
  | 0, src, hsrc, hfuel, p => by
    have hle := mem_dirs_length_le fs src hsrc
    exact absurd hfuel (by omega)
  | fuel + 1, src, hsrc, hfuel, p => by
    constructor
    · intro hr
      rw [getFilesAux_succ_true]
      cases hr with
      | direct _ _ hq hne hf =>
        have hmemf : p ∈ filePaths fs := (isFile_iff fs p).mp hf
        have hmemc : p ∈ childFiles fs src := (mem_childFiles_iff fs src p).mpr ⟨hmemf, hq, hne⟩
        have hc1 : (childFiles fs src).count p = 1 := by
          have hpred : (p.dropLast == src && !p.isEmpty) = true := by
            have hb : p.isEmpty = false := by
              cases p with
              | nil => exact absurd rfl hne
              | cons a as => rfl
            simp [hq, hb]
          have hcf := @List.count_filter FPath _ _
            (fun q => q.dropLast == src && !q.isEmpty) p (filePaths fs) hpred
          rw [childFiles, hcf]
          exact count_eq_one_of_nodup_mem hnf hmemf
        have hplen : p.length = src.length + 1 := length_eq_parent_succ hq hne
        have hz : ∀ d ∈ childDirs fs src, countIn (getFilesAux fs fuel d true) p = 0 := by
          intro d hd
          by_contra hc
          rcases getFilesAux_extend fs fuel d p (Nat.pos_of_ne_zero hc) with ⟨rest, hrne, hpeq⟩
          rcases (mem_childDirs_iff fs src d).mp hd with ⟨_, hdq, hdne⟩
          have hdlen : d.length = src.length + 1 := length_eq_parent_succ hdq hdne
          have hlen2 : p.length = d.length + rest.length := by rw [hpeq]; simp
          have hrlen : 0 < rest.length := List.length_pos.mpr hrne
          omega
        have hsumz : ((childDirs fs src).map
            fun d => countIn (getFilesAux fs fuel d true) p).sum = 0 :=
          List.sum_eq_zero (by
            intro x hx
            rcases List.mem_map.mp hx with ⟨d, hd, hfx⟩
            rw [← hfx]
            exact hz d hd)
        rw [hc1, hsumz]
      | step _ d0 _ hd0 hq0 hne0 hr0 =>
        rcases reaches_extend hr0 with ⟨rest0, hr0ne, hpeq0⟩
        have hd0len : d0.length = src.length + 1 := length_eq_parent_succ hq0 hne0
        have hz0 : (childFiles fs src).count p = 0 := by
          rw [List.count_eq_zero]
          intro hmem
          rcases (mem_childFiles_iff fs src p).mp hmem with ⟨_, hq, hne⟩
          have hplen : p.length = src.length + 1 := length_eq_parent_succ hq hne
          have hlen2 : p.length = d0.length + rest0.length := by rw [hpeq0]; simp
          have hrlen : 0 < rest0.length := List.length_pos.mpr hr0ne
          omega
        have hd0mem : d0 ∈ childDirs fs src := (mem_childDirs_iff fs src d0).mpr ⟨hd0, hq0, hne0⟩
        have hf1 : countIn (getFilesAux fs fuel d0 true) p = 1 :=
          (getFilesAux_count_eq fs hnf hnd fuel d0 hd0
            (by have := length_eq_parent_succ hq0 hne0; omega) p).1 hr0
        have hothers : ∀ d ∈ childDirs fs src, d ≠ d0 →
            countIn (getFilesAux fs fuel d true) p = 0 := by
          intro d hd hne2
          by_contra hc
          rcases getFilesAux_extend fs fuel d p (Nat.pos_of_ne_zero hc) with ⟨rest, hrne, hpeq⟩
          rcases (mem_childDirs_iff fs src d).mp hd with ⟨_, hdq, hdne⟩
          have hdlen : d.length = src.length + 1 := length_eq_parent_succ hdq hdne
          have e1 : List.take d.length p = d := by rw [hpeq]; exact List.take_left d rest
          have e2 : List.take d0.length p = d0 := by rw [hpeq0]; exact List.take_left d0 rest0
          rw [hdlen] at e1
          rw [hd0len] at e2
          exact hne2 (by rw [← e1, ← e2])
        have hnodupcd : (childDirs fs src).Nodup := List.Nodup.filter _ hnd
        rw [hz0, sum_map_eq_one _ (childDirs fs src) hnodupcd d0 hd0mem hf1 hothers]
    · intro hnr
      rw [getFilesAux_succ_true]
      have hz1 : (childFiles fs src).count p = 0 := by
        rw [List.count_eq_zero]
        intro hmem
        rcases (mem_childFiles_iff fs src p).mp hmem with ⟨hmf, hq, hne⟩
        exact hnr (Reaches.direct src p hq hne ((isFile_iff fs p).mpr hmf))
      have hz2 : ((childDirs fs src).map
          fun d => countIn (getFilesAux fs fuel d true) p).sum = 0 :=
        List.sum_eq_zero (by
          intro x hx
          rcases List.mem_map.mp hx with ⟨d, hd, hfx⟩
          rcases (mem_childDirs_iff fs src d).mp hd with ⟨hdd, hdq, hdne⟩
          rw [← hfx]
          by_contra hc
          exact hnr (Reaches.step src d p hdd hdq hdne
            (getFilesAux_reaches fs fuel d p (Nat.pos_of_ne_zero hc))))
      rw [hz1, hz2]

/-- C4: with recursive discovery from an existing source directory,
every regular file reachable by directory descent occurs in the
extension grouping with total multiplicity exactly one: it lands in one
group, once, and is duplicated nowhere. -/
theorem C4_reachable_exactly_once (fs : FS) (src p : FPath) (groups : ExtMap)
    (hnf : (filePaths fs).Nodup) (hnd : fs.dirs.Nodup) (hsrc : src ∈ fs.dirs)
    (hg : get_files_by_extension fs src true = .ok groups)
    (hr : Reaches fs src p) :
    countIn groups p = 1 := by
  have hdir : isDir fs src = true := (isDir_iff fs src).mpr hsrc
  rw [get_files_by_extension, if_pos hdir] at hg
  have h2 := Except.ok.inj hg
  rw [← h2]
  exact (getFilesAux_count_eq fs hnf hnd (dirDepth fs + 1) src hsrc (by omega) p).1 hr

/-- C4 witness: in the concrete tree fsOrd the nested file r/a/z.txt is
discovered exactly once. -/
theorem C4_reachable_exactly_once_witness :
    countIn (resMap (get_files_by_extension fsOrd ["r"] true)) ["r", "a", "z.txt"] = 1 :=
  C4_reachable_exactly_once fsOrd ["r"] ["r", "a", "z.txt"]
    (resMap (get_files_by_extension fsOrd ["r"] true))
    (by decide) (by decide) (by decide) rfl
    (Reaches.step ["r"] ["r", "a"] ["r", "a", "z.txt"] (by decide) (by decide) (by decide)
      (Reaches.direct ["r", "a"] ["r", "a", "z.txt"] (by decide) (by decide) (by decide)))

/-! ### C7: non-recursive discovery sees only direct children -/

/-- C7: without recursion the grouping contains a path iff it is a
regular file that is a direct child of the source root — subdirectories
are never descended into. -/
theorem C7_nonrecursive_direct_children (fs : FS) (src p : FPath) (groups : ExtMap)
    (hg : get_files_by_extension fs src false = .ok groups) :
    0 < countIn groups p ↔ p ∈ filePaths fs ∧ p.dropLast = src ∧ p ≠ [] := by
  cases hdir : isDir fs src with
  | false =>
    rw [get_files_by_extension, if_neg (by simp [hdir])] at hg
    cases hg
  | true =>
    rw [get_files_by_extension, if_pos hdir] at hg
    have h2 := Except.ok.inj hg
    rw [← h2, getFilesAux_succ_false]
    rw [List.count_pos_iff]
    exact mem_childFiles_iff fs src p

/-- C7 witness: at the concrete tree fsOrd with source r, the nested
file r/a/z.txt is not a direct child, and indeed does not satisfy the
right side; the equivalence is the theorem instantiated there. -/
theorem C7_nonrecursive_direct_children_witness :
    0 < countIn (resMap (get_files_by_extension fsOrd ["r"] false)) ["r", "a", "z.txt"]
      ↔ (["r", "a", "z.txt"] : FPath) ∈ filePaths fsOrd
        ∧ (["r", "a", "z.txt"] : FPath).dropLast = ["r"]
        ∧ (["r", "a", "z.txt"] : FPath) ≠ [] :=
  C7_nonrecursive_direct_children fsOrd ["r"] ["r", "a", "z.txt"]
    (resMap (get_files_by_extension fsOrd ["r"] false)) rfl

/-! ### C6: counts record exactly the successful operations -/

/-- The run state projected to an error-free result. -/
def resState : Except PyErr RunResult → RunResult
  | .ok st => st
  | .error _ => ⟨[], ⟨[], []⟩, []⟩

/-- The extension credited by a success event (the group key, equal to
the source file's extension key by discovery). -/
def successExt : Event → Option Name
  | .copied s _ => some (extKey (lastName s))
  | .moved s _ => some (extKey (lastName s))
  | .errFile _ => none
  | .errMissing _ => none

/-- Per-extension tally of the successful operations of a trace. -/
def extTally (evs : List Event) : List (Name × Nat) :=
  evs.foldl (fun c e => match successExt e with | some k => bump c k | none => c) []

/-- Whether an event reports the outcome of one attempted file
operation (success or caught per-file failure). -/
def isAttempt : Event → Bool
  | .copied _ _ => true
  | .moved _ _ => true
  | .errFile _ => true
  | .errMissing _ => false

/-- Number of attempted file operations reported in a trace. -/
def attempts (evs : List Event) : Nat := evs.countP isAttempt

/-- Total number of discovered files over all groups. -/
def totalFiles (groups : ExtMap) : Nat := (groups.map (fun kv => kv.2.length)).sum

theorem extTally_snoc (evs : List Event) (e : Event) :
    extTally (evs ++ [e]) = match successExt e with
      | some k => bump (extTally evs) k
      | none => extTally evs := by
  rw [extTally, List.foldl_append]
  rfl

theorem attempts_snoc (evs : List Event) (e : Event) :
    attempts (evs ++ [e]) = attempts evs + (if isAttempt e then 1 else 0) := by
  rw [attempts, List.countP_append]
  simp [attempts, List.countP_cons]

/-! Discovery assigns exactly the extension key of the file name as the
group key. -/

theorem extMapApp_key_prop (P : Name → FPath → Prop) (e : Name) (ps : List FPath) :
    ∀ (m : ExtMap), (∀ kv ∈ m, ∀ p ∈ kv.2, P kv.1 p) → (∀ p ∈ ps, P e p) →
      ∀ kv ∈ extMapApp m e ps, ∀ p ∈ kv.2, P kv.1 p
  | [], _, hp, kv, hkv => by
    simp only [extMapApp, List.mem_singleton] at hkv
    rw [hkv]
    exact hp
  | kv0 :: rest, hm, hp, kv, hkv => by
    obtain ⟨k0, l0⟩ := kv0
    by_cases hb : (k0 == e) = true
    · simp only [extMapApp, hb, if_true, List.mem_cons] at hkv
      rcases hkv with hh | hh
      · rw [hh]
        intro p hp2
        rcases List.mem_append.mp hp2 with h2 | h2
        · exact hm (k0, l0) (List.mem_cons_self _ _) p h2
        · have : k0 = e := by simpa using hb
          rw [this]
          exact hp p h2
      · exact hm kv (List.mem_cons_of_mem _ hh)
    · simp only [extMapApp, hb, Bool.false_eq_true, if_false, List.mem_cons] at hkv
      rcases hkv with hh | hh
      · rw [hh]
        exact hm (k0, l0) (List.mem_cons_self _ _)
      · exact extMapApp_key_prop P e ps rest
          (fun kv2 h => hm kv2 (List.mem_cons_of_mem _ h)) hp kv hh

/-- The key property preserved by the current-level grouping loop. -/
abbrev KeyedBy (m : ExtMap) : Prop := ∀ kv ∈ m, ∀ p ∈ kv.2, extKey (lastName p) = kv.1

theorem baseFold_key (l : List FPath) :
    ∀ m0 : ExtMap, KeyedBy m0 →
      KeyedBy (l.foldl (fun m q => extMapApp m (extKey (lastName q)) [q]) m0) := by
  induction l with
  | nil => intro m0 h; exact h
  | cons q rest ih =>
    intro m0 h
    simp only [List.foldl_cons]
    refine ih _ ?_
    refine extMapApp_key_prop (fun k p => extKey (lastName p) = k)
      (extKey (lastName q)) [q] m0 h ?_
    intro p hp
    rw [List.mem_singleton.mp hp]

theorem mergeFold_key (l2 : ExtMap) :
    KeyedBy l2 → ∀ m0 : ExtMap, KeyedBy m0 →
      KeyedBy (l2.foldl (fun m kv2 => extMapApp m kv2.1 kv2.2) m0) := by
  induction l2 with
  | nil => intro _ m0 h; exact h
  | cons kv2 rest ih =>
    intro hl2 m0 h
    simp only [List.foldl_cons]
    refine ih (fun kv h2 => hl2 kv (List.mem_cons_of_mem _ h2)) _ ?_
    exact extMapApp_key_prop (fun k p => extKey (lastName p) = k) kv2.1 kv2.2 m0 h
      (hl2 kv2 (List.mem_cons_self _ _))

theorem getFilesAux_key (fs : FS) :
    ∀ (fuel : Nat) (src : FPath) (rec : Bool), KeyedBy (getFilesAux fs fuel src rec)
  | 0, src, rec => by
    intro kv hkv
    simp [getFilesAux] at hkv
  | fuel + 1, src, rec => by
    have hbase : KeyedBy ((childFiles fs src).foldl
        (fun m q => extMapApp m (extKey (lastName q)) [q]) []) :=
      baseFold_key (childFiles fs src) [] (by intro kv h; cases h)
    have hdirs : ∀ (ds : List FPath) (m0 : ExtMap), KeyedBy m0 →
        KeyedBy (ds.foldl (fun m d => (getFilesAux fs fuel d true).foldl
          (fun m2 kv2 => extMapApp m2 kv2.1 kv2.2) m) m0) := by
      intro ds
      induction ds with
      | nil => intro m0 h; exact h
      | cons d rest ih =>
        intro m0 h
        simp only [List.foldl_cons]
        exact ih _ (mergeFold_key _ (getFilesAux_key fs fuel d true) m0 h)
    cases rec with
    | false =>
      simp only [getFilesAux, Bool.false_eq_true, if_false]
      exact hbase
    | true =>
      simp only [getFilesAux, if_true]
      exact hdirs (childDirs fs src) _ hbase

/-! The per-file loop: one event per file, counter bumped only on
success, processing always reaches the end of the list. -/

theorem processGroup_total (fmt : Fmt) (opFail : OpFail) (sys : SmartFilingSystem) (move : Bool)
    (ext pattern : Name) (hfmt : ∀ q i, (fmt q i).isSome = true) :
    ∀ (lst : List (Nat × FPath)) (st : RunResult),
      (∀ pr ∈ lst, extKey (lastName pr.2) = ext) →
      ∃ st2, processGroup fmt opFail sys move ext pattern lst st = .ok st2
        ∧ (st.counts = extTally st.events → st2.counts = extTally st2.events)
        ∧ attempts st2.events = attempts st.events + lst.length
  | [], st, _ => ⟨st, rfl, fun h => h, by simp⟩
  | (i, src) :: rest, st, hk => by
    have hksrc : extKey (lastName src) = ext := hk (i, src) (List.mem_cons_self _ _)
    have hkrest : ∀ pr ∈ rest, extKey (lastName pr.2) = ext :=
      fun pr h => hk pr (List.mem_cons_of_mem _ h)
    cases hf : fmt pattern i with
    | none =>
      have := hfmt pattern i
      rw [hf] at this
      cases this
    | some base =>
      simp only [processGroup, hf]
      by_cases ho : opFail src (sys.folder_path ++ [base ++ pySuffix (lastName src)]) = true
      · rw [if_pos ho]
        obtain ⟨st2, hp, hinv, hatt⟩ := processGroup_total fmt opFail sys move ext pattern hfmt
          rest ⟨st.counts, st.fs, st.events ++ [.errFile src]⟩ hkrest
        refine ⟨st2, hp, ?_, ?_⟩
        · intro h
          refine hinv ?_
          show st.counts = extTally (st.events ++ [.errFile src])
          rw [extTally_snoc]
          exact h
        · rw [hatt]
          show attempts (st.events ++ [.errFile src]) + rest.length = _
          rw [attempts_snoc]
          simp [isAttempt, List.length_cons]
          omega
      · rw [if_neg ho]
        by_cases hmove : move = true
        · rw [if_pos hmove]
          cases hmv : pyMove st.fs src (sys.folder_path ++ [base ++ pySuffix (lastName src)]) with
          | none =>
            obtain ⟨st2, hp, hinv, hatt⟩ := processGroup_total fmt opFail sys move ext pattern
              hfmt rest ⟨st.counts, st.fs, st.events ++ [.errFile src]⟩ hkrest
            refine ⟨st2, hp, ?_, ?_⟩
            · intro h
              refine hinv ?_
              show st.counts = extTally (st.events ++ [.errFile src])
              rw [extTally_snoc]
              exact h
            · rw [hatt]
              show attempts (st.events ++ [.errFile src]) + rest.length = _
              rw [attempts_snoc]
              simp [isAttempt, List.length_cons]
              omega
          | some fs2 =>
            obtain ⟨st2, hp, hinv, hatt⟩ := processGroup_total fmt opFail sys move ext pattern
              hfmt rest ⟨bump st.counts ext, fs2, st.events ++ [.moved src _]⟩ hkrest
            refine ⟨st2, hp, ?_, ?_⟩
            · intro h
              refine hinv ?_
              show bump st.counts ext = extTally (st.events ++ [.moved src _])
              rw [extTally_snoc]
              show bump st.counts ext = bump (extTally st.events) (extKey (lastName src))
              rw [hksrc, h]
            · rw [hatt]
              show attempts (st.events ++ [.moved src _]) + rest.length = _
              rw [attempts_snoc]
              simp [isAttempt, List.length_cons]
              omega
        · rw [if_neg hmove]
          cases hcp : pyCopy2 st.fs src (sys.folder_path ++ [base ++ pySuffix (lastName src)]) with
          | none =>
            obtain ⟨st2, hp, hinv, hatt⟩ := processGroup_total fmt opFail sys move ext pattern
              hfmt rest ⟨st.counts, st.fs, st.events ++ [.errFile src]⟩ hkrest
            refine ⟨st2, hp, ?_, ?_⟩
            · intro h
              refine hinv ?_
              show st.counts = extTally (st.events ++ [.errFile src])
              rw [extTally_snoc]
              exact h
            · rw [hatt]
              show attempts (st.events ++ [.errFile src]) + rest.length = _
              rw [attempts_snoc]
              simp [isAttempt, List.length_cons]
              omega
          | some fs2 =>
            obtain ⟨st2, hp, hinv, hatt⟩ := processGroup_total fmt opFail sys move ext pattern
              hfmt rest ⟨bump st.counts ext, fs2, st.events ++ [.copied src _]⟩ hkrest
            refine ⟨st2, hp, ?_, ?_⟩
            · intro h
              refine hinv ?_
              show bump st.counts ext = extTally (st.events ++ [.copied src _])
              rw [extTally_snoc]
              show bump st.counts ext = bump (extTally st.events) (extKey (lastName src))
              rw [hksrc, h]
            · rw [hatt]
              show attempts (st.events ++ [.copied src _]) + rest.length = _
              rw [attempts_snoc]
              simp [isAttempt, List.length_cons]
              omega

theorem processGroups_total (fmt : Fmt) (opFail : OpFail) (sys : SmartFilingSystem) (move : Bool)
    (hfmt : ∀ q i, (fmt q i).isSome = true) :
    ∀ (groups : ExtMap) (st : RunResult), KeyedBy groups →
      ∃ st2, processGroups fmt opFail sys move groups st = .ok st2
        ∧ (st.counts = extTally st.events → st2.counts = extTally st2.events)
        ∧ attempts st2.events = attempts st.events + totalFiles groups
  | [], st, _ => ⟨st, rfl, fun h => h, by simp [totalFiles]⟩
  | (ext, files) :: rest, st, hkey => by
    have hkey1 : ∀ pr ∈ numbering files, extKey (lastName pr.2) = ext := by
      intro pr hpr
      have hsnd : pr.2 ∈ (numbering files).map Prod.snd := List.mem_map_of_mem Prod.snd hpr
      rw [numbering, enumFromMapSnd] at hsnd
      have hmem : pr.2 ∈ files := ((List.perm_insertionSort pLe files).mem_iff).mp hsnd
      exact hkey (ext, files) (List.mem_cons_self _ _) pr.2 hmem
    obtain ⟨st1, hp1, hinv1, hatt1⟩ := processGroup_total fmt opFail sys move ext
      (dictGetD sys.naming_patterns ext sys.default_pattern) hfmt (numbering files) st hkey1
    obtain ⟨st2, hp2, hinv2, hatt2⟩ := processGroups_total fmt opFail sys move hfmt rest st1
      (fun kv h => hkey kv (List.mem_cons_of_mem _ h))
    refine ⟨st2, ?_, fun h => hinv2 (hinv1 h), ?_⟩
    · simp only [processGroups, hp1]
      exact hp2
    · have hlen : (numbering files).length = files.length := by
        rw [numbering, List.enumFrom_length]
        exact (List.perm_insertionSort pLe files).length_eq
      rw [hatt2, hatt1, hlen]
      simp only [totalFiles, List.map_cons, List.sum_cons]
      show _ = attempts st.events + (files.length + (rest.map (fun kv => kv.2.length)).sum)
      omega

/-- C6: with a well-behaved formatter, a run that returns does so having
attempted every discovered file exactly once (an individual failure
never aborts the batch), and the returned counts dict is exactly the
per-extension tally of the successful copy/move operations — failed
files are not counted. -/
theorem C6_counts_successes (fmt : Fmt) (opFail : OpFail) (sys : SmartFilingSystem) (fs : FS)
    (src : FPath) (recursive move : Bool) (st : RunResult)
    (hfmt : ∀ q i, (fmt q i).isSome = true)
    (hok : organize_files fmt opFail sys fs src recursive move = .ok st) :
    st.counts = extTally st.events
    ∧ (isDir fs src = true →
        attempts st.events = totalFiles (getFilesAux fs (dirDepth fs + 1) src recursive)) := by
  by_cases hex : pyExists fs src = true
  · simp only [organize_files, hex, if_true] at hok
    cases hdir : isDir fs src with
    | false =>
      rw [get_files_by_extension] at hok
      rw [if_neg (by simp [hdir])] at hok
      exact Except.noConfusion hok
    | true =>
      rw [get_files_by_extension, if_pos hdir] at hok
      have hok2 : processGroups fmt opFail sys move
          (getFilesAux fs (dirDepth fs + 1) src recursive) ⟨[], fs, []⟩ = .ok st := hok
      obtain ⟨st2, hp, hinv, hatt⟩ := processGroups_total fmt opFail sys move hfmt
        (getFilesAux fs (dirDepth fs + 1) src recursive) ⟨[], fs, []⟩
        (getFilesAux_key fs (dirDepth fs + 1) src recursive)
      rw [hp] at hok2
      have hst := Except.ok.inj hok2
      rw [← hst]
      refine ⟨hinv rfl, fun _ => ?_⟩
      rw [hatt]
      simp [attempts]
  · simp only [organize_files, hex, Bool.false_eq_true, if_false] at hok
    have hst := Except.ok.inj hok
    rw [← hst]
    refine ⟨rfl, fun hdir => ?_⟩
    exact absurd (by simp [pyExists, hdir] : pyExists fs src = true) hex

/-- A per-file failure oracle under which the single file s/a.txt cannot
be copied (permission denied). -/
def failOnA : OpFail := fun s _ => s == ["s", "a.txt"]

/-- Source tree for the C6 witness: two txt files under s. -/
def fsC6 : FS :=
  { files := [(["s", "a.txt"], 0), (["s", "b.txt"], 1)], dirs := [["s"], ["t"]] }

/-- C6 witness: a.txt fails, b.txt succeeds; both are attempted, the
counts dict records exactly the one success. -/
theorem C6_counts_successes_witness :
    (resState (organize_files fmtStd failOnA sysT fsC6 ["s"] false false)).counts
      = extTally (resState (organize_files fmtStd failOnA sysT fsC6 ["s"] false false)).events
    ∧ attempts (resState (organize_files fmtStd failOnA sysT fsC6 ["s"] false false)).events
      = totalFiles (getFilesAux fsC6 (dirDepth fsC6 + 1) ["s"] false) := by
  have h := C6_counts_successes fmtStd failOnA sysT fsC6 ["s"] false false
    (resState (organize_files fmtStd failOnA sysT fsC6 ["s"] false false))
    (fun q i => rfl) rfl
  exact ⟨h.1, h.2 (by decide)⟩

/-- C9 witness: register one raw extension over a fresh configuration;
the key invariant holds at that concrete state. -/
theorem C9_keys_normalized_witness :
    KeysOK (([SysOp.setPat ".JPG" "img_"].foldl applySysOp
      (SmartFilingSystem.init ["t"])).naming_patterns) :=
  C9_keys_normalized ["t"] [SysOp.setPat ".JPG" "img_"]

/-! ### C5: filesystem frame of a run with target outside the sources -/

theorem lookup_filter_ne (l : List (FPath × Nat)) (p q : FPath) (hne : p ≠ q) :
    (l.filter (fun kv => !(kv.1 == q))).lookup p = l.lookup p := by
  induction l with
  | nil => rfl
  | cons kv rest ih =>
    obtain ⟨k, v⟩ := kv
    rw [List.filter_cons]
    by_cases hb : (k == q) = true
    · have hkq : k = q := by simpa using hb
      have hpk : (p == k) = false := by
        rw [hkq]
        simpa using hne
      simp only [hb, Bool.not_true, Bool.false_eq_true, if_false]
      rw [ih]
      show _ = List.lookup p ((k, v) :: rest)
      simp [List.lookup, hpk]
    · simp only [hb, Bool.not_false, if_true]
      show List.lookup p ((k, v) :: _) = List.lookup p ((k, v) :: rest)
      by_cases hpk : (p == k) = true
      · simp [List.lookup, hpk]
      · simp only [List.lookup, hpk]
        exact ih

theorem lookup_filter_self (l : List (FPath × Nat)) (q : FPath) :
    (l.filter (fun kv => !(kv.1 == q))).lookup q = none := by
  induction l with
  | nil => rfl
  | cons kv rest ih =>
    obtain ⟨k, v⟩ := kv
    rw [List.filter_cons]
    by_cases hb : (k == q) = true
    · simp only [hb, Bool.not_true, Bool.false_eq_true, if_false]
      exact ih
    · simp only [hb, Bool.not_false, if_true]
      have hqk : (q == k) = false := by
        have : ¬ k = q := by simpa using hb
        simp
        exact fun hc => this hc.symm
      simp only [List.lookup, hqk]
      exact ih

theorem lookupFile_writeFile (fs : FS) (dst : FPath) (c : Nat) (p : FPath) :
    lookupFile (writeFile fs dst c) p = if p = dst then some c else lookupFile fs p := by
  by_cases hp : p = dst
  · rw [if_pos hp, hp, lookupFile, writeFile]
    show ((fs.files.filter (fun q => !(q.1 == dst))) ++ [(dst, c)]).lookup dst = some c
    rw [List.lookup_append, lookup_filter_self]
    simp [List.lookup]
  · rw [if_neg hp, lookupFile, writeFile]
    show ((fs.files.filter (fun q => !(q.1 == dst))) ++ [(dst, c)]).lookup p = _
    rw [List.lookup_append, lookup_filter_ne fs.files p dst hp]
    have hone : List.lookup p [(dst, c)] = none := by
      have hpd : (p == dst) = false := by simpa using hp
      simp [List.lookup, hpd]
    rw [hone]
    show (fs.files.lookup p).or none = fs.files.lookup p
    cases fs.files.lookup p <;> rfl

theorem lookupFile_eraseFile (fs : FS) (q p : FPath) :
    lookupFile (eraseFile fs q) p = if p = q then none else lookupFile fs p := by
  by_cases hp : p = q
  · rw [if_pos hp, hp, lookupFile, eraseFile]
    exact lookup_filter_self _ _
  · rw [if_neg hp, lookupFile, eraseFile]
    exact lookup_filter_ne _ _ _ hp

theorem writeFile_dirs (fs : FS) (p : FPath) (c : Nat) : (writeFile fs p c).dirs = fs.dirs := rfl

theorem eraseFile_dirs (fs : FS) (p : FPath) : (eraseFile fs p).dirs = fs.dirs := rfl

/-- No directory sits directly inside the target folder (and the target
is not its own child), so no destination path is a directory. -/
def NoDirTarget (fs : FS) (target : FPath) : Prop :=
  ∀ d ∈ fs.dirs, ¬ (d.dropLast = target ∧ d ≠ [])

theorem isDir_target_child_false {fs : FS} {target : FPath} (h : NoDirTarget fs target)
    (n : Name) : isDir fs (target ++ [n]) = false := by
  cases hb : isDir fs (target ++ [n]) with
  | false => rfl
  | true =>
    have hmem : (target ++ [n]) ∈ fs.dirs := (isDir_iff _ _).mp hb
    exact absurd ⟨List.dropLast_concat, by simp⟩ (h _ hmem)

theorem pyCopy2_frame {fs fs2 : FS} {src dst : FPath} (hdir : isDir fs dst = false)
    (h : pyCopy2 fs src dst = some fs2) :
    fs2.dirs = fs.dirs ∧ ∀ p : FPath, p ≠ dst → lookupFile fs2 p = lookupFile fs p := by
  rw [pyCopy2] at h
  cases hl : lookupFile fs src with
  | none => rw [hl] at h; cases h
  | some c =>
    rw [hl] at h
    simp only [hdir, Bool.false_eq_true, if_false] at h
    by_cases hds : (dst == src) = true
    · rw [if_pos hds] at h; cases h
    · rw [if_neg hds] at h
      have h2 := Option.some.inj h
      rw [← h2]
      refine ⟨writeFile_dirs fs dst c, ?_⟩
      intro p hp
      rw [lookupFile_writeFile, if_neg hp]

theorem pyMove_frame {fs fs2 : FS} {src dst : FPath} (hdir : isDir fs dst = false)
    (h : pyMove fs src dst = some fs2) :
    (dst = src ∧ fs2 = fs)
    ∨ (dst ≠ src ∧ ∃ c, fs2 = eraseFile (writeFile fs dst c) src) := by
  rw [pyMove] at h
  cases hl : lookupFile fs src with
  | none => rw [hl] at h; cases h
  | some c =>
    rw [hl] at h
    simp only [hdir, Bool.false_eq_true, if_false] at h
    by_cases hds : (dst == src) = true
    · rw [if_pos hds] at h
      exact Or.inl ⟨by simpa using hds, (Option.some.inj h).symm⟩
    · rw [if_neg hds] at h
      exact Or.inr ⟨by simpa using hds, c, (Option.some.inj h).symm⟩

/-- Every source reported as moved away from outside the target folder
is gone from the current snapshot. -/
def MovedGone (target : FPath) (st : RunResult) : Prop :=
  ∀ s d, Event.moved s d ∈ st.events → s.dropLast ≠ target → lookupFile st.fs s = none

theorem movedGone_errFile (target : FPath) (st : RunResult) (c2 : List (Name × Nat)) (q : FPath)
    (h : MovedGone target st) : MovedGone target ⟨c2, st.fs, st.events ++ [.errFile q]⟩ := by
  intro s d hmem hs
  rcases List.mem_append.mp hmem with h2 | h2
  · exact h s d h2 hs
  · exact Event.noConfusion (List.mem_singleton.mp h2)

theorem movedGone_write (target : FPath) (st : RunResult) (c2 : List (Name × Nat))
    (fs2 : FS) (q dst : FPath) (hdst : dst.dropLast = target)
    (hfr : ∀ p : FPath, p ≠ dst → lookupFile fs2 p = lookupFile st.fs p)
    (h : MovedGone target st) :
    MovedGone target ⟨c2, fs2, st.events ++ [.copied q dst]⟩ := by
  intro s d hmem hs
  rcases List.mem_append.mp hmem with h2 | h2
  · have hne : s ≠ dst := fun hc => hs (by rw [hc, hdst])
    rw [hfr s hne]
    exact h s d h2 hs
  · exact Event.noConfusion (List.mem_singleton.mp h2)

theorem movedGone_move (target : FPath) (st : RunResult) (c2 : List (Name × Nat))
    (q dst : FPath) (c : Nat) (hdst : dst.dropLast = target)
    (h : MovedGone target st) :
    MovedGone target ⟨c2, eraseFile (writeFile st.fs dst c) q, st.events ++ [.moved q dst]⟩ := by
  intro s d hmem hs
  rcases List.mem_append.mp hmem with h2 | h2
  · rw [lookupFile_eraseFile]
    by_cases hsq : s = q
    · rw [if_pos hsq]
    · rw [if_neg hsq, lookupFile_writeFile, if_neg (fun hc => hs (by rw [hc, hdst]))]
      exact h s d h2 hs
  · have he := List.mem_singleton.mp h2
    injection he with h3 h4
    rw [h3, lookupFile_eraseFile, if_pos rfl]

theorem movedGone_move_self (target : FPath) (st : RunResult) (c2 : List (Name × Nat))
    (q dst : FPath) (hdst : dst.dropLast = target) (heq : dst = q)
    (h : MovedGone target st) :
    MovedGone target ⟨c2, st.fs, st.events ++ [.moved q dst]⟩ := by
  intro s d hmem hs
  rcases List.mem_append.mp hmem with h2 | h2
  · exact h s d h2 hs
  · have he := List.mem_singleton.mp h2
    injection he with h3 h4
    exact absurd (by rw [h3, ← heq, hdst]) hs

theorem processGroup_frame (fmt : Fmt) (opFail : OpFail) (sys : SmartFilingSystem) (move : Bool)
    (ext pattern : Name) :
    ∀ (lst : List (Nat × FPath)) (st st2 : RunResult),
      processGroup fmt opFail sys move ext pattern lst st = .ok st2 →
      NoDirTarget st.fs sys.folder_path →
      st2.fs.dirs = st.fs.dirs
      ∧ (move = false → ∀ p : FPath, p.dropLast ≠ sys.folder_path →
          lookupFile st2.fs p = lookupFile st.fs p)
      ∧ (MovedGone sys.folder_path st → MovedGone sys.folder_path st2)
  | [], st, st2, h, _ => by
    have h2 := Except.ok.inj h
    rw [← h2]
    exact ⟨rfl, fun _ _ _ => rfl, fun k => k⟩
  | (i, src) :: rest, st, st2, h, hnd => by
    cases hf : fmt pattern i with
    | none =>
      simp only [processGroup, hf] at h
      exact Except.noConfusion h
    | some base =>
      simp only [processGroup, hf] at h
      by_cases ho : opFail src (sys.folder_path ++ [base ++ pySuffix (lastName src)]) = true
      · rw [if_pos ho] at h
        obtain ⟨hd2, hf2, hm2⟩ :=
          processGroup_frame fmt opFail sys move ext pattern rest _ st2 h hnd
        exact ⟨hd2, hf2, fun k => hm2 (movedGone_errFile _ st _ src k)⟩
      · rw [if_neg ho] at h
        by_cases hmove : move = true
        · rw [if_pos hmove] at h
          cases hmv : pyMove st.fs src (sys.folder_path ++ [base ++ pySuffix (lastName src)]) with
          | none =>
            rw [hmv] at h
            obtain ⟨hd2, hf2, hm2⟩ :=
              processGroup_frame fmt opFail sys move ext pattern rest _ st2 h hnd
            exact ⟨hd2, hf2, fun k => hm2 (movedGone_errFile _ st _ src k)⟩
          | some fs2c =>
            rw [hmv] at h
            have hdirb : isDir st.fs
                (sys.folder_path ++ [base ++ pySuffix (lastName src)]) = false :=
              isDir_target_child_false hnd _
            rcases pyMove_frame hdirb hmv with ⟨heq, hfs⟩ | ⟨hneq, c, hfs⟩
            · subst hfs
              obtain ⟨hd2, hf2, hm2⟩ :=
                processGroup_frame fmt opFail sys move ext pattern rest _ st2 h hnd
              exact ⟨hd2, hf2, fun k =>
                hm2 (movedGone_move_self sys.folder_path st _ src _
                  List.dropLast_concat heq k)⟩
            · subst hfs
              obtain ⟨hd2, hf2, hm2⟩ :=
                processGroup_frame fmt opFail sys move ext pattern rest _ st2 h hnd
              refine ⟨hd2, fun hmf => absurd hmove (by simp [hmf]), fun k =>
                hm2 (movedGone_move sys.folder_path st _ src _ c
                  List.dropLast_concat k)⟩
        · rw [if_neg hmove] at h
          cases hcp : pyCopy2 st.fs src (sys.folder_path ++ [base ++ pySuffix (lastName src)]) with
          | none =>
            rw [hcp] at h
            obtain ⟨hd2, hf2, hm2⟩ :=
              processGroup_frame fmt opFail sys move ext pattern rest _ st2 h hnd
            exact ⟨hd2, hf2, fun k => hm2 (movedGone_errFile _ st _ src k)⟩
          | some fs2c =>
            rw [hcp] at h
            have hdirb : isDir st.fs
                (sys.folder_path ++ [base ++ pySuffix (lastName src)]) = false :=
              isDir_target_child_false hnd _
            obtain ⟨hdirs2, hfr⟩ := pyCopy2_frame hdirb hcp
            have hnd2 : NoDirTarget fs2c sys.folder_path := fun d hd => hnd d (hdirs2 ▸ hd)
            obtain ⟨hd2, hf2, hm2⟩ :=
              processGroup_frame fmt opFail sys move ext pattern rest _ st2 h hnd2
            refine ⟨hd2.trans hdirs2, ?_, fun k =>
              hm2 (movedGone_write sys.folder_path st _ fs2c src _
                List.dropLast_concat hfr k)⟩
            intro hmf p hp
            have hne : p ≠ sys.folder_path ++ [base ++ pySuffix (lastName src)] :=
              fun hc => hp (by rw [hc]; exact List.dropLast_concat)
            rw [hf2 hmf p hp]
            exact hfr p hne

theorem processGroups_frame (fmt : Fmt) (opFail : OpFail) (sys : SmartFilingSystem)
    (move : Bool) :
    ∀ (groups : ExtMap) (st st2 : RunResult),
      processGroups fmt opFail sys move groups st = .ok st2 →
      NoDirTarget st.fs sys.folder_path →
      st2.fs.dirs = st.fs.dirs
      ∧ (move = false → ∀ p : FPath, p.dropLast ≠ sys.folder_path →
          lookupFile st2.fs p = lookupFile st.fs p)
      ∧ (MovedGone sys.folder_path st → MovedGone sys.folder_path st2)
  | [], st, st2, h, _ => by
    have h2 := Except.ok.inj h
    rw [← h2]
    exact ⟨rfl, fun _ _ _ => rfl, fun k => k⟩
  | (ext, files) :: rest, st, st2, h, hnd => by
    simp only [processGroups] at h
    cases hg : processGroup fmt opFail sys move ext
        (dictGetD sys.naming_patterns ext sys.default_pattern) (numbering files) st with
    | error e => rw [hg] at h; exact Except.noConfusion h
    | ok st1 =>
      rw [hg] at h
      obtain ⟨hd1, hf1, hm1⟩ := processGroup_frame fmt opFail sys move ext
        (dictGetD sys.naming_patterns ext sys.default_pattern) (numbering files) st st1 hg hnd
      have hnd1 : NoDirTarget st1.fs sys.folder_path := fun d hd => hnd d (hd1 ▸ hd)
      obtain ⟨hd2, hf2, hm2⟩ := processGroups_frame fmt opFail sys move rest st1 st2 h hnd1
      exact ⟨hd2.trans hd1,
        fun hmf p hp => (hf2 hmf p hp).trans (hf1 hmf p hp),
        fun k => hm2 (hm1 k)⟩

/-- C5 (amended): in a run whose target directory contains no
subdirectory entry, (copy) with move=false every file outside the target
directory — in particular every source file when no source lies in the
target — is present with unchanged content afterwards; (move) every file
reported moved from outside the target directory is no longer present at
its original location. -/
theorem C5_disjoint_target_copy_move (fmt : Fmt) (opFail : OpFail) (sys : SmartFilingSystem)
    (fs : FS) (src : FPath) (recursive move : Bool) (st : RunResult)
    (hnd : ∀ d ∈ fs.dirs, ¬ (d.dropLast = sys.folder_path ∧ d ≠ []))
    (hok : organize_files fmt opFail sys fs src recursive move = .ok st) :
    (move = false → ∀ p : FPath, p.dropLast ≠ sys.folder_path →
        lookupFile st.fs p = lookupFile fs p)
    ∧ (∀ s d, Event.moved s d ∈ st.events → s.dropLast ≠ sys.folder_path →
        lookupFile st.fs s = none) := by
  by_cases hex : pyExists fs src = true
  · simp only [organize_files, hex, if_true] at hok
    cases hdir : isDir fs src with
    | false =>
      rw [get_files_by_extension] at hok
      rw [if_neg (by simp [hdir])] at hok
      exact Except.noConfusion hok
    | true =>
      rw [get_files_by_extension, if_pos hdir] at hok
      have hok2 : processGroups fmt opFail sys move
          (getFilesAux fs (dirDepth fs + 1) src recursive) ⟨[], fs, []⟩ = .ok st := hok
      obtain ⟨hd, hf, hm⟩ := processGroups_frame fmt opFail sys move
        (getFilesAux fs (dirDepth fs + 1) src recursive) ⟨[], fs, []⟩ st hok2 hnd
      exact ⟨hf, hm (fun s d hmem _ => absurd hmem (List.not_mem_nil _))⟩
  · simp only [organize_files, hex, Bool.false_eq_true, if_false] at hok
    have h2 := Except.ok.inj hok
    rw [← h2]
    refine ⟨fun _ _ _ => rfl, fun s d hmem _ => ?_⟩
    exact Event.noConfusion (List.mem_singleton.mp hmem)

/-- C5 (amended) witness: copying s into the disjoint target t leaves
the source file s/a.txt present with its original content. -/
theorem C5_disjoint_target_copy_move_witness :
    (∀ d ∈ fsC6.dirs, ¬ (d.dropLast = sysT.folder_path ∧ d ≠ []))
    ∧ lookupFile (resState (organize_files fmtStd noFail sysT fsC6 ["s"] false false)).fs
        ["s", "a.txt"] = lookupFile fsC6 ["s", "a.txt"] := by
  have h := C5_disjoint_target_copy_move fmtStd noFail sysT fsC6 ["s"] false false
    (resState (organize_files fmtStd noFail sysT fsC6 ["s"] false false)) (by decide) rfl
  exact ⟨by decide, h.1 rfl ["s", "a.txt"] (by decide)⟩
